import Mathlib

/-!
Verification of the protobuf-go fast-path message encoder.

This development gives a shallow embedding of two source files of the
repository:

* the encode path (`sizePointer`, `sizePointerSlow`, `marshalAppendPointer`,
  `sizeExtensions`, `appendExtensions`) from the message-encoding file, and
* the coder-table builder (`makeCoderMethods`) from
  `internal/impl/codec_message.go`,

and proves the spec's claims about them.  Bytes are modelled as `Nat`,
buffers as `List Nat`, Go `int32` values as `Int` truncated through
`wrap32`, Go maps as association lists, and the external per-field /
per-extension coder functions (the `FieldCoderRegistry`, not part of the
two source files) as explicit function-valued data carried in the records,
exactly in the positions where the source stores them.
-/

namespace ProtoEnc

/-- Marshal options.  The Go source stores a bit set `Flags` and exposes the
two predicates `Deterministic()` and `UseCachedSize()`; we model the two
predicates directly. -/
structure MarshalOptions where
  deterministic : Bool
  useCachedSize : Bool

/-- Models `func (o marshalOptions) UseCachedSize() bool`. -/
def MarshalOptions.UseCachedSize (o : MarshalOptions) : Bool := o.useCachedSize

/-- Models `func (o marshalOptions) Deterministic() bool`. -/
def MarshalOptions.Deterministic (o : MarshalOptions) : Bool := o.deterministic

/-- Per-extension-type coder information, the result of
`getExtensionFieldInfo(x.Type())`: a size function (possibly nil), a marshal
function (called unconditionally by `appendExtensions`), the wire tag and the
tag size.  The size function receives the extension's value and `xi.tagsize`;
the marshal function receives the buffer, the value and `xi.wiretag`, and
returns the new buffer together with an optional error. -/
structure ExtFieldInfo where
  sizeFn : Option (Nat → Nat → MarshalOptions → Nat)
  marshalFn : List Nat → Nat → Nat → MarshalOptions → List Nat × Option Nat
  wiretag : Nat
  tagsize : Nat

/-- Runtime extension entry (`ExtensionField`): its value together with the
coder information `getExtensionFieldInfo` computes from its type.  Because
`getExtensionFieldInfo` is a pure function of the entry's extension type, we
attach its result to the entry. -/
structure ExtensionField where
  value : Nat
  info : ExtFieldInfo

/-- Default `ExtensionField` used to model Go's total map indexing
`(*ext)[int32(k)]`; every actual lookup in `appendExtensions` uses a key
taken from the same map, so the default is never the result. -/
def defaultExtensionField : ExtensionField :=
  { value := 0
    info := { sizeFn := none, marshalFn := fun b _ _ _ => (b, none),
              wiretag := 0, tagsize := 0 } }

/-- Models the Go map `map[int32]ExtensionField` as an association list;
field encoding below only depends on it through its length, its key set and
the key-to-entry association, matching a Go map's observable behaviour up to
iteration order. -/
def ExtMap := List (Int × ExtensionField)

/-- Map indexing `(*ext)[int32(k)]`. -/
def extIndex (l : List (Int × ExtensionField)) (k : Int) : ExtensionField :=
  match l.find? (fun e => e.1 = k) with
  | some e => e.2
  | none => defaultExtensionField

/-- Message instance reachable from a non-nil `pointer`.  Field slots are
addressed in the source by struct offset (`p.Apply(f.offset)`); distinct
fields have distinct offsets and we key the slots by field number instead.
`fieldNil` models `fptr.Elem().IsNil()` and `fieldVal` the value the
field's coder functions read through `fptr`.  `sizecache` is the `int32`
size-cache slot, `unknown` the raw unknown-bytes blob, and `exts` the
(possibly nil) extension map. -/
structure Msg where
  fieldNil : Nat → Bool
  fieldVal : Nat → Nat
  sizecache : Int
  unknown : List Nat
  exts : Option (List (Int × ExtensionField))

/-- Fast-path coder functions of one field (`pointerCoderFuncs`), restricted
to the two used by the encode path.  The source calls
`f.funcs.size(fptr, f, opts)` and `f.funcs.marshal(b, fptr, f, opts)`; our
functions receive the field's value in place of `fptr` and close over
whatever of `f` they need. -/
structure PointerCoderFuncs where
  size : Option (Nat → MarshalOptions → Nat)
  marshal : Option (List Nat → Nat → MarshalOptions → List Nat × Option Nat)

/-- Per-field information of the coder table (`coderFieldInfo`), restricted
to the fields the encode path and the table builder use. -/
structure CoderFieldInfo where
  num : Nat
  wiretag : Nat
  tagsize : Nat
  isPointer : Bool
  isRequired : Bool
  funcs : PointerCoderFuncs

/-- Per-type information consumed by the encode path (the relevant parts of
`MessageInfo`).  The `...Valid` flags model `offset.IsValid()` of the three
per-instance slots; `protoLegacy` models the build flag `flags.ProtoLegacy`;
`sizeMessageSet` and `marshalMessageSet` are the external `MessageSetCodec`
collaborator functions. -/
structure MessageInfo where
  protoLegacy : Bool
  isMessageSet : Bool
  sizecacheValid : Bool
  unknownValid : Bool
  extensionValid : Bool
  orderedCoderFields : List CoderFieldInfo
  sizeMessageSet : Msg → MarshalOptions → Nat
  marshalMessageSet : List Nat → Msg → MarshalOptions → List Nat × Option Nat

/-- Truncation of a mathematical integer through Go's `int32`, as performed
by `int32(size)` before `atomic.StoreInt32`. -/
def wrap32 (x : Int) : Int := (x + 2 ^ 31) % 2 ^ 32 - 2 ^ 31

/-- Models `func (mi *MessageInfo) sizeExtensions(ext *map[int32]ExtensionField,
opts marshalOptions) (n int)`: iterate the map entries, skip entries whose
extension type has no size function, and sum the sizes. -/
def sizeExtensions (ext : Option (List (Int × ExtensionField)))
    (opts : MarshalOptions) : Nat :=
  match ext with
  | none => 0
  | some l =>
    l.foldl
      (fun n e =>
        match e.2.info.sizeFn with
        | none => n
        | some s => n + s e.2.value e.2.info.tagsize opts)
      0

/-- Loop body of the default case of `appendExtensions`: marshal the entries
of `l` named by `keys` in order, stopping at the first error. -/
def marshalExtKeys (b : List Nat) (keys : List Int)
    (l : List (Int × ExtensionField)) (opts : MarshalOptions) :
    List Nat × Option Nat :=
  match keys with
  | [] => (b, none)
  | k :: ks =>
    match (extIndex l k).info.marshalFn b (extIndex l k).value
        (extIndex l k).info.wiretag opts with
    | (b', none) => marshalExtKeys b' ks l opts
    | (b', some e) => (b', some e)

/-- Models `func (mi *MessageInfo) appendExtensions`: nil or empty map
appends nothing; exactly one entry marshals it directly without sorting;
two or more entries collect the keys, sort them ascending (`sort.Ints`) and
marshal each entry in that order, stopping at the first error. -/
def appendExtensions (b : List Nat)
    (ext : Option (List (Int × ExtensionField))) (opts : MarshalOptions) :
    List Nat × Option Nat :=
  match ext with
  | none => (b, none)
  | some l =>
    match l with
    | [] => (b, none)
    | [e] => e.2.info.marshalFn b e.2.value e.2.info.wiretag opts
    | _ =>
      let keys := (l.map (fun e => e.1)).mergeSort (fun a b => a ≤ b)
      marshalExtKeys b keys l opts

/-- Field-walk part of `sizePointerSlow`: fold over `orderedCoderFields`,
skipping fields with no size function and pointer-like fields that are nil,
accumulating the sizes onto `acc` (mirrors `size += f.funcs.size(...)`). -/
def sizeFields (acc : Nat) (p : Msg) (fs : List CoderFieldInfo)
    (opts : MarshalOptions) : Nat :=
  match fs with
  | [] => acc
  | f :: rest =>
    match f.funcs.size with
    | none => sizeFields acc p rest opts
    | some s =>
      if f.isPointer && p.fieldNil f.num then sizeFields acc p rest opts
      else sizeFields (acc + s (p.fieldVal f.num) opts) p rest opts

/-- Store `int32(size)` into the size-cache slot when the type has one
(mirrors `atomic.StoreInt32(p.Apply(mi.sizecacheOffset).Int32(), int32(size))`
guarded by `mi.sizecacheOffset.IsValid()`). -/
def storeSizecache (mi : MessageInfo) (p : Msg) (n : Nat) : Msg :=
  if mi.sizecacheValid then { p with sizecache := wrap32 n } else p

/-- Models `func (mi *MessageInfo) sizePointerSlow`.  Returns the computed
size together with the instance after the size-cache side effect. -/
def sizePointerSlow (mi : MessageInfo) (p : Msg) (opts : MarshalOptions) :
    Nat × Msg :=
  if mi.protoLegacy && mi.isMessageSet then
    let size := mi.sizeMessageSet p opts
    (size, storeSizecache mi p size)
  else
    let size0 := if mi.extensionValid then sizeExtensions p.exts opts else 0
    let size1 := sizeFields size0 p mi.orderedCoderFields opts
    let size2 := size1 + (if mi.unknownValid then p.unknown.length else 0)
    (size2, storeSizecache mi p size2)

/-- Models `func (mi *MessageInfo) sizePointer`.  A nil pointer sizes to 0;
with cache reuse requested and a size-cache slot present the slot's current
value is returned as a Go `int` (`int(atomic.LoadInt32(...))`); otherwise
the slow path runs.  Returns the size together with the possibly updated
instance. -/
def sizePointer (mi : MessageInfo) (p : Option Msg) (opts : MarshalOptions) :
    Int × Option Msg :=
  match p with
  | none => (0, none)
  | some m =>
    if opts.UseCachedSize && mi.sizecacheValid then (m.sizecache, some m)
    else
      let r := sizePointerSlow mi m opts
      ((r.1 : Int), some r.2)

/-- Field-walk part of `marshalAppendPointer`: marshal each field of `fs` in
order, skipping fields with no marshal function and pointer-like fields that
are nil, stopping at the first error with the buffer accumulated so far. -/
def marshalFields (b : List Nat) (p : Msg) (fs : List CoderFieldInfo)
    (opts : MarshalOptions) : List Nat × Option Nat :=
  match fs with
  | [] => (b, none)
  | f :: rest =>
    match f.funcs.marshal with
    | none => marshalFields b p rest opts
    | some g =>
      if f.isPointer && p.fieldNil f.num then marshalFields b p rest opts
      else
        match g b (p.fieldVal f.num) opts with
        | (b', none) => marshalFields b' p rest opts
        | (b', some e) => (b', some e)

/-- Models `func (mi *MessageInfo) marshalAppendPointer`.  A nil pointer
appends nothing; a legacy message set delegates to `marshalMessageSet`;
otherwise extensions are appended first (aborting on error), then the
ordered fields (aborting on error), then — when the type has an
unknown-bytes slot and is not a message set — the raw unknown bytes. -/
def marshalAppendPointer (mi : MessageInfo) (b : List Nat) (p : Option Msg)
    (opts : MarshalOptions) : List Nat × Option Nat :=
  match p with
  | none => (b, none)
  | some m =>
    if mi.protoLegacy && mi.isMessageSet then mi.marshalMessageSet b m opts
    else
      match (if mi.extensionValid then appendExtensions b m.exts opts
             else (b, none)) with
      | (b1, some e) => (b1, some e)
      | (b1, none) =>
        match marshalFields b1 m mi.orderedCoderFields opts with
        | (b2, some e) => (b2, some e)
        | (b2, none) =>
          if mi.unknownValid && !mi.isMessageSet then (b2 ++ m.unknown, none)
          else (b2, none)

/-- Combined flag: the source takes the legacy message-set paths exactly
when `flags.ProtoLegacy && mi.isMessageSet`; the spec calls this
message-set-legacy. -/
def MessageInfo.isMessageSetLegacy (mi : MessageInfo) : Bool :=
  mi.protoLegacy && mi.isMessageSet

/-! ### The coder-table builder (`makeCoderMethods`, codec_message.go) -/

/-- Field descriptor, the schema-layer input of the builder: field number,
oneof membership (`fd.ContainingOneof() != nil`), weak-ness, packed-ness,
the wire type `wireTypes[fd.Kind()]` assigned by the external kind table,
kind and cardinality flags, and the syntax test `fd.Syntax() == Proto3`. -/
structure FieldDesc where
  num : Nat
  inOneof : Bool
  isWeak : Bool
  isPacked : Bool
  kindWireType : Nat
  kindMessage : Bool
  kindGroup : Bool
  repeatedCard : Bool
  requiredCard : Bool
  proto3 : Bool

/-- Default descriptor, standing in for Go's nil dereference in
`fields.ByNumber`; never the result of a lookup the builder performs. -/
def defaultFieldDesc : FieldDesc :=
  { num := 0, inOneof := false, isWeak := false, isPacked := false,
    kindWireType := 0, kindMessage := false, kindGroup := false,
    repeatedCard := false, requiredCard := false, proto3 := true }

/-- Models `fields.ByNumber(n)`: the descriptor with field number `n`. -/
def fieldsByNumber (fields : List FieldDesc) (n : Nat) : FieldDesc :=
  match fields.find? (fun fd => fd.num = n) with
  | some fd => fd
  | none => defaultFieldDesc

/-- Size of the varint encoding of `v` (`wire.SizeVarint`). -/
def sizeVarint (v : Nat) : Nat :=
  if v < 128 then 1 else 1 + sizeVarint (v / 128)
termination_by v
decreasing_by exact Nat.div_lt_self (by omega) (by omega)

/-- Relevant slot information of `structInfo`: validity of the size-cache,
unknown-bytes and extension offsets. -/
structure StructInfo where
  sizecacheValid : Bool
  unknownValid : Bool
  extensionValid : Bool

/-- Coder table produced by the builder (`coderMessageInfo`), restricted to
the parts the claims concern.  `coderFields` is the number-keyed map
`map[wire.Number]*coderFieldInfo` and `denseCoderFields` the dense lookup
array (entries are `none` where the Go array holds a nil pointer). -/
structure CoderMessageInfo where
  orderedCoderFields : List CoderFieldInfo
  denseCoderFields : List (Option CoderFieldInfo)
  coderFields : Nat → Option CoderFieldInfo
  sizecacheValid : Bool
  unknownValid : Bool
  extensionValid : Bool
  isMessageSet : Bool

/-- Construction of one `coderFieldInfo` record from its descriptor (the
body of the per-field loop of `makeCoderMethods`).  `wire.EncodeTag(n, wt)`
is `n<<3 | wt` and `wire.BytesType` is 2; packed fields always get the
length-delimited wire type.  The three coder-function sources are external:
`fieldCoder` models the registry lookup `fieldCoder(fd, ft)`, `weakCoder`
models `makeWeakMessageFieldCoder(fd)`, and `oneofCoder` models the
functions `initOneofFieldCoders` installs into the same record right after
the loop. -/
def buildCoderField (fieldCoder weakCoder oneofCoder : FieldDesc → PointerCoderFuncs)
    (fd : FieldDesc) : CoderFieldInfo :=
  let wiretag := if !fd.isPacked then fd.num * 8 + fd.kindWireType
                 else fd.num * 8 + 2
  let funcs := if fd.inOneof then oneofCoder fd
               else if fd.isWeak then weakCoder fd
               else fieldCoder fd
  { num := fd.num
    wiretag := wiretag
    tagsize := sizeVarint wiretag
    isPointer := fd.repeatedCard || fd.kindMessage || fd.kindGroup || !fd.proto3
    isRequired := fd.requiredCard
    funcs := funcs }

/-- Insertion `mi.coderFields[cf.num] = cf` into the number-keyed map. -/
def coderFieldsInsert (mp : Nat → Option CoderFieldInfo) (cf : CoderFieldInfo) :
    Nat → Option CoderFieldInfo :=
  fun n => if n = cf.num then some cf else mp n

/-- Models Go's `sort.Slice(l, less)`: sorting with respect to the
non-strict order induced by the strict comparator `less`.  `sort.Slice` is
unspecified up to ties of `less`; the two comparators the builder passes
are tie-free on the field lists it sorts, so every comparison sort agrees
with this one there. -/
def sortSlice {α : Type} (less : α → α → Bool) (l : List α) : List α :=
  l.mergeSort (fun a b => !less b a)

/-- Scan computing `maxDense`: walk the ascending field list and stop at the
first field number that is at least 16 and at least twice the largest number
already included. -/
def maxDenseLoop (cfs : List CoderFieldInfo) (maxDense : Nat) : Nat :=
  match cfs with
  | [] => maxDense
  | cf :: rest =>
    if 16 ≤ cf.num && 2 * maxDense ≤ cf.num then maxDense
    else maxDenseLoop rest cf.num

/-- Fill loop of the dense array: walk the ascending field list, stop at the
first field number exceeding the array length, and store each record at the
index of its field number.  (`List.set` ignores an out-of-range index; the
Go original would panic there, and `denseFill_of_sorted` below only ever
evaluates writes at in-range indices for the lists the builder passes.) -/
def denseFill (cfs : List CoderFieldInfo) (d : List (Option CoderFieldInfo)) :
    List (Option CoderFieldInfo) :=
  match cfs with
  | [] => d
  | cf :: rest =>
    if d.length < cf.num then d
    else denseFill rest (d.set cf.num (some cf))

/-- Modelled from the spec: the historical field-ordering comparator
`fieldsort.Less` (package `internal/fieldsort`, not among the source
files).  Per the spec it pushes oneof members to the end while keeping the
rest in ascending-number order, so a oneof member compares after every
non-member and fields compare by number otherwise. -/
def fieldsortLess (a b : FieldDesc) : Bool :=
  if a.inOneof != b.inOneof then !a.inOneof else a.num < b.num

/-- Models `func (mi *MessageInfo) makeCoderMethods`, restricted to the
construction of the coder table (the trailing method-wiring and the
validation/init bookkeeping are out of scope).  The fatal
`panic(fmt.Sprintf(...))` calls for a message-set type missing its
extension or unknown slot are modelled as `Except.error`; note the source
performs them before any sorting, after the field records and the
number-keyed map are built. -/
def makeCoderMethods (fieldCoder weakCoder oneofCoder : FieldDesc → PointerCoderFuncs)
    (isMessageSetDesc : Bool) (fullName : String) (si : StructInfo)
    (fields : List FieldDesc) (oneofsLen : Nat) :
    Except String CoderMessageInfo :=
  let cfs := fields.map (buildCoderField fieldCoder weakCoder oneofCoder)
  let coderMap := cfs.foldl coderFieldsInsert (fun _ => none)
  if isMessageSetDesc && !si.extensionValid then
    .error (fullName ++ ": MessageSet with no extensions field")
  else if isMessageSetDesc && !si.unknownValid then
    .error (fullName ++ ": MessageSet with no unknown field")
  else
    let sorted := sortSlice (fun a b => decide (a.num < b.num)) cfs
    let maxDense := maxDenseLoop sorted 0
    let dense := denseFill sorted (List.replicate (maxDense + 1) none)
    let ordered :=
      if 0 < oneofsLen then
        sortSlice
          (fun a b =>
            fieldsortLess (fieldsByNumber fields a.num) (fieldsByNumber fields b.num))
          sorted
      else sorted
    .ok { orderedCoderFields := ordered
          denseCoderFields := dense
          coderFields := coderMap
          sizecacheValid := si.sizecacheValid
          unknownValid := si.unknownValid
          extensionValid := si.extensionValid
          isMessageSet := isMessageSetDesc }

/-- Dense-range cutoff exactly as the spec phrases the heuristic: scan the
ascending field numbers, stopping extension of the dense range once a field
number would be at least 16 and at least twice the largest number already
included; the result is the largest included number. -/
def specDenseCutoff (nums : List Nat) (maxIncluded : Nat) : Nat :=
  match nums with
  | [] => maxIncluded
  | n :: rest =>
    if 16 ≤ n ∧ 2 * maxIncluded ≤ n then maxIncluded
    else specDenseCutoff rest n

/-! ### Specification-side predicates used by the claims -/

/-- Size of one extension entry as `sizeExtensions` counts it: zero when the
extension type has no size function. -/
def extSize (x : ExtensionField) (opts : MarshalOptions) : Nat :=
  match x.info.sizeFn with
  | none => 0
  | some s => s x.value x.info.tagsize opts

/-- Sequential encoding of a list of extension entries in list order,
stopping at the first error; used to express what order `appendExtensions`
emits entries in. -/
def marshalEntryList (b : List Nat) (l : List (Int × ExtensionField))
    (opts : MarshalOptions) : List Nat × Option Nat :=
  match l with
  | [] => (b, none)
  | e :: rest =>
    match e.2.info.marshalFn b e.2.value e.2.info.wiretag opts with
    | (b', none) => marshalEntryList b' rest opts
    | (b', some er) => (b', some er)

/-- Encoding of an extension map strictly in ascending field-number order,
as the spec demands of `appendExtensions` for two or more entries. -/
def encodeAscending (b : List Nat) (l : List (Int × ExtensionField))
    (opts : MarshalOptions) : List Nat × Option Nat :=
  marshalEntryList b (l.mergeSort (fun e1 e2 => decide (e1.1 ≤ e2.1))) opts

/-- Coder function pair of one field agrees between sizing and marshaling:
either both functions are absent, or both are present, the marshal function
always succeeds by appending bytes to the buffer it is given, and it appends
exactly as many bytes as the size function reports. -/
def FieldCoherent (f : CoderFieldInfo) : Prop :=
  (f.funcs.size = none ∧ f.funcs.marshal = none)
  ∨ (∃ s g, f.funcs.size = some s ∧ f.funcs.marshal = some g
      ∧ ∀ b v opts, ∃ out, g b v opts = (b ++ out, none) ∧ out.length = s v opts)

/-- Coder of one extension entry agrees between sizing and marshaling. -/
def ExtCoherent (x : ExtensionField) : Prop :=
  ∃ s, x.info.sizeFn = some s
    ∧ ∀ b opts, ∃ out,
        x.info.marshalFn b x.value x.info.wiretag opts = (b ++ out, none)
        ∧ out.length = s x.value x.info.tagsize opts

/-- External `MessageSetCodec` contract for one instance: encoding appends
exactly the number of bytes its size routine reports and never fails. -/
def MsgSetCoherent (mi : MessageInfo) (m : Msg) : Prop :=
  ∀ b opts, ∃ out, mi.marshalMessageSet b m opts = (b ++ out, none)
    ∧ out.length = mi.sizeMessageSet m opts

/-- Marshal-style function that only ever appends to the buffer it is
given, with appended bytes and error independent of the buffer. -/
def Appender (g : List Nat → Nat → MarshalOptions → List Nat × Option Nat) : Prop :=
  ∀ b v opts, (g b v opts).1 = b ++ (g [] v opts).1
    ∧ (g b v opts).2 = (g [] v opts).2

/-- Appending property for an extension marshal function (which also takes
the wire tag). -/
def ExtAppender (g : List Nat → Nat → Nat → MarshalOptions → List Nat × Option Nat) : Prop :=
  ∀ b v w opts, (g b v w opts).1 = b ++ (g [] v w opts).1
    ∧ (g b v w opts).2 = (g [] v w opts).2

/-! ### Concrete instances used by counterexamples and witnesses -/

/-- Marshal options with neither flag set. -/
def plainOpts : MarshalOptions := { deterministic := false, useCachedSize := false }

/-- Marshal options requesting cached-size reuse. -/
def cachedOpts : MarshalOptions := { deterministic := false, useCachedSize := true }

/-- Coder field appending one byte `7`, of size 1, always present. -/
def exField1 : CoderFieldInfo :=
  { num := 1, wiretag := 8, tagsize := 1, isPointer := false, isRequired := false,
    funcs := { size := some (fun _ _ => 1),
               marshal := some (fun b _ _ => (b ++ [7], none)) } }

/-- Message-set codec stub returning the buffer unchanged with size 0. -/
def exMsgSetSize : Msg → MarshalOptions → Nat := fun _ _ => 0

/-- Message-set codec stub for marshaling. -/
def exMsgSetMarshal : List Nat → Msg → MarshalOptions → List Nat × Option Nat :=
  fun b _ _ => (b, none)

/-- Type with one coherent single-byte field and a size-cache slot. -/
def c1mi : MessageInfo :=
  { protoLegacy := false, isMessageSet := false, sizecacheValid := true,
    unknownValid := false, extensionValid := false,
    orderedCoderFields := [exField1],
    sizeMessageSet := exMsgSetSize, marshalMessageSet := exMsgSetMarshal }

/-- Instance of `c1mi` that has never been sized: the cache slot holds its
zero initial value while the true encoding is one byte long. -/
def c1m : Msg :=
  { fieldNil := fun _ => false, fieldVal := fun _ => 42, sizecache := 0,
    unknown := [], exts := none }

/-- Type whose only field reports size `2 ^ 31`, overflowing `int32`. -/
def c4mi : MessageInfo :=
  { protoLegacy := false, isMessageSet := false, sizecacheValid := true,
    unknownValid := false, extensionValid := false,
    orderedCoderFields :=
      [{ num := 1, wiretag := 10, tagsize := 1, isPointer := false,
         isRequired := false,
         funcs := { size := some (fun _ _ => 2 ^ 31), marshal := none } }],
    sizeMessageSet := exMsgSetSize, marshalMessageSet := exMsgSetMarshal }

/-- Fresh instance of `c4mi`. -/
def c4m : Msg :=
  { fieldNil := fun _ => false, fieldVal := fun _ => 0, sizecache := 0,
    unknown := [], exts := none }

/-- Legacy message-set type delegating to stub codec routines. -/
def c3mi : MessageInfo :=
  { protoLegacy := true, isMessageSet := true, sizecacheValid := true,
    unknownValid := true, extensionValid := true,
    orderedCoderFields := [exField1],
    sizeMessageSet := fun _ _ => 2,
    marshalMessageSet := fun b _ _ => (b ++ [11, 13], none) }

/-- Instance of `c3mi` carrying unknown bytes the canonical path would
append but the message-set path must not. -/
def c3m : Msg :=
  { fieldNil := fun _ => false, fieldVal := fun _ => 0, sizecache := 0,
    unknown := [99], exts := none }

/-- Field whose marshal function fails, returning one appended byte and
error code 5. -/
def c8errField : CoderFieldInfo :=
  { num := 2, wiretag := 16, tagsize := 1, isPointer := false, isRequired := false,
    funcs := { size := some (fun _ _ => 1),
               marshal := some (fun b _ _ => (b ++ [1], some 5)) } }

/-- Type with a failing field followed by a further field and an
unknown-bytes slot, for observing that an error aborts the walk. -/
def c8mi : MessageInfo :=
  { protoLegacy := false, isMessageSet := false, sizecacheValid := false,
    unknownValid := true, extensionValid := false,
    orderedCoderFields := [c8errField, exField1],
    sizeMessageSet := exMsgSetSize, marshalMessageSet := exMsgSetMarshal }

/-- Instance of `c8mi` with unknown bytes present. -/
def c8m : Msg :=
  { fieldNil := fun _ => false, fieldVal := fun _ => 0, sizecache := 0,
    unknown := [77], exts := none }

/-- Extension entry with field number key `k`, appending the single byte
`v` and sizing to 1. -/
def exExt (v : Nat) : ExtensionField :=
  { value := v
    info := { sizeFn := some (fun _ _ _ => 1),
              marshalFn := fun b val _ _ => (b ++ [val], none),
              wiretag := 0, tagsize := 1 } }

/-- Two-entry extension map with keys out of order. -/
def c2l : List (Int × ExtensionField) := [(9, exExt 90), (3, exExt 30)]

/-- Type with an extension slot, one regular field and an unknown slot, for
the byte-order claim. -/
def c5mi : MessageInfo :=
  { protoLegacy := false, isMessageSet := false, sizecacheValid := false,
    unknownValid := true, extensionValid := true,
    orderedCoderFields := [exField1],
    sizeMessageSet := exMsgSetSize, marshalMessageSet := exMsgSetMarshal }

/-- Instance of `c5mi` with one extension and unknown bytes. -/
def c5m : Msg :=
  { fieldNil := fun _ => false, fieldVal := fun _ => 0, sizecache := 0,
    unknown := [1, 2], exts := some [(3, exExt 9)] }

/-- Registry stub handing every descriptor the `exField1` coder pair. -/
def exRegistry : FieldDesc → PointerCoderFuncs :=
  fun _ => { size := some (fun _ _ => 1), marshal := some (fun b _ _ => (b ++ [7], none)) }

/-- Struct slots with everything present. -/
def exSi : StructInfo :=
  { sizecacheValid := true, unknownValid := true, extensionValid := true }

/-- Struct slots lacking the unknown-bytes slot. -/
def exSiNoUnknown : StructInfo :=
  { sizecacheValid := true, unknownValid := false, extensionValid := true }

/-- Placeholder table for total pattern matches on `Except`. -/
def junkCmi : CoderMessageInfo :=
  { orderedCoderFields := [], denseCoderFields := [], coderFields := fun _ => none,
    sizecacheValid := false, unknownValid := false, extensionValid := false,
    isMessageSet := false }

/-- Field list of the spec's oneof example: numbers 1 and 3 plain, numbers
2 and 4 oneof members. -/
def c6fields : List FieldDesc :=
  [{ defaultFieldDesc with num := 1 },
   { defaultFieldDesc with num := 2, inOneof := true },
   { defaultFieldDesc with num := 3 },
   { defaultFieldDesc with num := 4, inOneof := true }]

/-- Built table of the oneof example. -/
def c6cmi : CoderMessageInfo :=
  match makeCoderMethods exRegistry exRegistry exRegistry false "M" exSi c6fields 1 with
  | .ok cmi => cmi
  | .error _ => junkCmi

/-- Field list with a sparse tail: numbers 1, 2, 3 and 300, so the dense
range stops before 300. -/
def c7fields : List FieldDesc :=
  [{ defaultFieldDesc with num := 300 },
   { defaultFieldDesc with num := 2 },
   { defaultFieldDesc with num := 1 },
   { defaultFieldDesc with num := 3 }]

/-- Built table of the sparse example. -/
def c7cmi : CoderMessageInfo :=
  match makeCoderMethods exRegistry exRegistry exRegistry false "M" exSi c7fields 0 with
  | .ok cmi => cmi
  | .error _ => junkCmi

/-! ### General lemmas -/

/-- Truncation is the identity on values already in `int32` range. -/
theorem wrap32_eq_self (x : Int) (h0 : 0 ≤ x) (h1 : x < 2 ^ 31) : wrap32 x = x := by
  unfold wrap32
  omega

/-- Storing the size cache changes nothing but the `sizecache` slot. -/
theorem storeSizecache_fields (mi : MessageInfo) (p : Msg) (n : Nat) :
    (storeSizecache mi p n).fieldNil = p.fieldNil
    ∧ (storeSizecache mi p n).fieldVal = p.fieldVal
    ∧ (storeSizecache mi p n).unknown = p.unknown
    ∧ (storeSizecache mi p n).exts = p.exts := by
  unfold storeSizecache
  by_cases h : mi.sizecacheValid = true <;> simp [h]

/-- Slot content after `storeSizecache` on a type with a valid slot. -/
theorem storeSizecache_sizecache (mi : MessageInfo) (p : Msg) (n : Nat)
    (h : mi.sizecacheValid = true) :
    (storeSizecache mi p n).sizecache = wrap32 n := by
  simp [storeSizecache, h]

/-! ### Claim C3: legacy message-set delegation -/

/-- C3: for every type flagged message-set-legacy, the slow size path is
exactly the MessageSetCodec size routine, with that result stored into the
size-cache slot when one is present, and marshal is exactly the
MessageSetCodec encode routine — the canonical extension/field/unknown walk
is bypassed, for every field list, extension set and unknown-bytes blob. -/
theorem C3_messageset_delegation (mi : MessageInfo) (m : Msg) (b : List Nat)
    (opts : MarshalOptions) (h : mi.isMessageSetLegacy = true) :
    sizePointerSlow mi m opts
      = (mi.sizeMessageSet m opts,
         storeSizecache mi m (mi.sizeMessageSet m opts))
    ∧ marshalAppendPointer mi b (some m) opts = mi.marshalMessageSet b m opts := by
  have h' : (mi.protoLegacy && mi.isMessageSet) = true := h
  exact ⟨by simp [sizePointerSlow, h'], by simp [marshalAppendPointer, h']⟩

/-- Witness for C3 at the concrete legacy type `c3mi`: size is the codec's
2 and marshal is the codec's two bytes, with the unknown blob not
re-appended. -/
theorem C3_messageset_delegation_witness :
    sizePointerSlow c3mi c3m plainOpts
      = (c3mi.sizeMessageSet c3m plainOpts,
         storeSizecache c3mi c3m (c3mi.sizeMessageSet c3m plainOpts))
    ∧ marshalAppendPointer c3mi [0] (some c3m) plainOpts
      = c3mi.marshalMessageSet [0] c3m plainOpts :=
  C3_messageset_delegation c3mi c3m [0] plainOpts rfl

/-! ### Claim C9: message-set build failure -/

/-- C9: building the table for a descriptor matching the message-set
convention fails with a build error whenever the extension slot or the
unknown-bytes slot is absent, and whenever it does succeed the table is
flagged message-set — never a silent fall back to the canonical path. -/
theorem C9_messageset_build_failure
    (fieldCoder weakCoder oneofCoder : FieldDesc → PointerCoderFuncs)
    (fullName : String) (si : StructInfo) (fields : List FieldDesc)
    (oneofsLen : Nat) :
    ((si.extensionValid = false ∨ si.unknownValid = false) →
      ∃ msg, makeCoderMethods fieldCoder weakCoder oneofCoder true fullName si
          fields oneofsLen = .error msg)
    ∧ (∀ cmi, makeCoderMethods fieldCoder weakCoder oneofCoder true fullName si
          fields oneofsLen = .ok cmi → cmi.isMessageSet = true) := by
  constructor
  · intro h
    unfold makeCoderMethods
    rcases h with h | h
    · exact ⟨fullName ++ ": MessageSet with no extensions field", by simp [h]⟩
    · by_cases he : si.extensionValid = true
      · exact ⟨fullName ++ ": MessageSet with no unknown field", by simp [h, he]⟩
      · refine ⟨fullName ++ ": MessageSet with no extensions field", ?_⟩
        simp only [Bool.not_eq_true] at he
        simp [he]
  · intro cmi h
    unfold makeCoderMethods at h
    by_cases he : si.extensionValid = true
    · by_cases hu : si.unknownValid = true
      · simp [he, hu] at h
        rw [← h]
      · simp only [Bool.not_eq_true] at hu
        simp [he, hu] at h
    · simp only [Bool.not_eq_true] at he
      simp [he] at h

/-- Witness for C9: a message-set descriptor over slots lacking the
unknown-bytes slot fails to build. -/
theorem C9_messageset_build_failure_witness :
    ∃ msg, makeCoderMethods exRegistry exRegistry exRegistry true "T"
        exSiNoUnknown c6fields 1 = .error msg :=
  (C9_messageset_build_failure exRegistry exRegistry exRegistry "T"
      exSiNoUnknown c6fields 1).1 (Or.inr rfl)

/-! ### Claim C10: unconditional cached-size read -/

/-- C10: with cache reuse requested and a size-cache slot present, size on a
non-nil instance returns the slot's current value unconditionally — no
check that a prior computation populated it — while a full computation
stores the total truncated through `int32`; concretely, on the never-sized
non-empty instance `c1m` the cached read returns 0 although the true size
is 1. -/
theorem C10_cached_read_unconditional :
    (∀ (mi : MessageInfo) (m : Msg) (opts : MarshalOptions),
      opts.useCachedSize = true → mi.sizecacheValid = true →
      sizePointer mi (some m) opts = (m.sizecache, some m))
    ∧ (∀ (mi : MessageInfo) (m : Msg) (opts : MarshalOptions),
      mi.sizecacheValid = true →
      ((sizePointerSlow mi m opts).2).sizecache
        = wrap32 ((sizePointerSlow mi m opts).1 : Int))
    ∧ (sizePointer c1mi (some c1m) cachedOpts).1 = 0
    ∧ (sizePointerSlow c1mi c1m cachedOpts).1 = 1 := by
  refine ⟨?_, ?_, rfl, rfl⟩
  · intro mi m opts h hv
    simp [sizePointer, MarshalOptions.UseCachedSize, h, hv]
  · intro mi m opts hv
    unfold sizePointerSlow
    cases hms : (mi.protoLegacy && mi.isMessageSet) <;>
      simp [hms, storeSizecache_sizecache _ _ _ hv]

/-- Witness for C10 at the concrete type `c1mi`: the cached read returns
the slot value of the untouched instance. -/
theorem C10_cached_read_unconditional_witness :
    sizePointer c1mi (some c1m) cachedOpts = (c1m.sizecache, some c1m) :=
  C10_cached_read_unconditional.1 c1mi c1m cachedOpts rfl rfl

/-! ### Claim C4: size-cache store and reuse -/

/-- Slow size computation always stores the truncated total. -/
theorem sizePointerSlow_stores (mi : MessageInfo) (m : Msg) (opts : MarshalOptions)
    (hv : mi.sizecacheValid = true) :
    ((sizePointerSlow mi m opts).2).sizecache
      = wrap32 ((sizePointerSlow mi m opts).1 : Int) := by
  unfold sizePointerSlow
  cases hms : (mi.protoLegacy && mi.isMessageSet) <;>
    simp [hms, storeSizecache_sizecache _ _ _ hv]

/-- C4 (amended): whenever the type has a size-cache slot, a full size
computation stores the freshly computed total truncated through `int32`
into the slot as a side effect, for every options setting; size without
cache reuse performs the full computation; the second call with cache reuse
requested returns the stored slot value without traversing fields; and the
two calls return the same value whenever the computed total fits in a
signed 32-bit integer. -/
theorem C4_size_cache_roundtrip (mi : MessageInfo) (m : Msg)
    (opts opts2 : MarshalOptions) (hv : mi.sizecacheValid = true)
    (h2 : opts2.useCachedSize = true) :
    ((sizePointerSlow mi m opts).2).sizecache
      = wrap32 ((sizePointerSlow mi m opts).1 : Int)
    ∧ (opts.useCachedSize = false →
        sizePointer mi (some m) opts
          = (((sizePointerSlow mi m opts).1 : Int),
             some (sizePointerSlow mi m opts).2))
    ∧ sizePointer mi (some (sizePointerSlow mi m opts).2) opts2
        = (wrap32 ((sizePointerSlow mi m opts).1 : Int),
           some (sizePointerSlow mi m opts).2)
    ∧ ((sizePointerSlow mi m opts).1 < 2 ^ 31 →
        (sizePointer mi (some (sizePointerSlow mi m opts).2) opts2).1
          = ((sizePointerSlow mi m opts).1 : Int)) := by
  have hstore := sizePointerSlow_stores mi m opts hv
  have hcached :
      sizePointer mi (some (sizePointerSlow mi m opts).2) opts2
        = (wrap32 ((sizePointerSlow mi m opts).1 : Int),
           some (sizePointerSlow mi m opts).2) := by
    simp [sizePointer, MarshalOptions.UseCachedSize, h2, hv, hstore]
  refine ⟨hstore, ?_, hcached, ?_⟩
  · intro h1
    simp [sizePointer, MarshalOptions.UseCachedSize, h1]
  · intro hfit
    rw [hcached]
    exact wrap32_eq_self _ (Int.natCast_nonneg _) (by exact_mod_cast hfit)

/-- Counterexample to C4 as stated: on the type `c4mi` whose single field
sizes to `2 ^ 31`, the first size call computes `2 ^ 31` but the second
call with cache reuse returns the truncated value `-2 ^ 31`, so the two
calls do not return the same value. -/
theorem C4_counterexample :
    (sizePointer c4mi (some c4m) plainOpts).1 = (2 : Int) ^ 31
    ∧ (sizePointer c4mi ((sizePointer c4mi (some c4m) plainOpts).2) cachedOpts).1
        = -((2 : Int) ^ 31)
    ∧ (sizePointer c4mi ((sizePointer c4mi (some c4m) plainOpts).2) cachedOpts).1
        ≠ (sizePointer c4mi (some c4m) plainOpts).1 := by
  refine ⟨?_, ?_, ?_⟩ <;> decide

/-- Witness for C4 at the one-byte type `c1mi`, whose total 1 fits in
`int32`: the cached re-read returns the freshly computed total. -/
theorem C4_size_cache_roundtrip_witness :
    (sizePointer c1mi (some (sizePointerSlow c1mi c1m plainOpts).2) cachedOpts).1
      = ((sizePointerSlow c1mi c1m plainOpts).1 : Int) :=
  (C4_size_cache_roundtrip c1mi c1m plainOpts cachedOpts rfl rfl).2.2.2 (by decide)

/-! ### Claim C8: first error aborts the marshal walk -/

/-- Step of the field walk for a field with no marshal function. -/
theorem marshalFields_cons_none (f : CoderFieldInfo) (rest : List CoderFieldInfo)
    (b : List Nat) (p : Msg) (opts : MarshalOptions)
    (hm : f.funcs.marshal = none) :
    marshalFields b p (f :: rest) opts = marshalFields b p rest opts := by
  rw [marshalFields, hm]

/-- Step of the field walk for a nil pointer-like field. -/
theorem marshalFields_cons_skip (f : CoderFieldInfo) (rest : List CoderFieldInfo)
    (b : List Nat) (p : Msg) (opts : MarshalOptions)
    (g : List Nat → Nat → MarshalOptions → List Nat × Option Nat)
    (hm : f.funcs.marshal = some g)
    (hnil : (f.isPointer && p.fieldNil f.num) = true) :
    marshalFields b p (f :: rest) opts = marshalFields b p rest opts := by
  rw [marshalFields, hm]
  simp [hnil]

/-- Step of the field walk for a field that is actually encoded. -/
theorem marshalFields_cons_run (f : CoderFieldInfo) (rest : List CoderFieldInfo)
    (b : List Nat) (p : Msg) (opts : MarshalOptions)
    (g : List Nat → Nat → MarshalOptions → List Nat × Option Nat)
    (hm : f.funcs.marshal = some g)
    (hnil : (f.isPointer && p.fieldNil f.num) = false) :
    marshalFields b p (f :: rest) opts =
      match g b (p.fieldVal f.num) opts with
      | (b', none) => marshalFields b' p rest opts
      | (b', some e) => (b', some e) := by
  rw [marshalFields, hm]
  simp [hnil]

/-- Field walk over an appended list when the first part succeeds. -/
theorem marshalFields_append_ok :
    ∀ (l1 : List CoderFieldInfo) (l2 : List CoderFieldInfo) (b b1 : List Nat)
      (p : Msg) (opts : MarshalOptions),
      marshalFields b p l1 opts = (b1, none) →
      marshalFields b p (l1 ++ l2) opts = marshalFields b1 p l2 opts
  | [], l2, b, b1, p, opts, h => by
    rw [marshalFields] at h
    cases h
    rfl
  | f :: rest, l2, b, b1, p, opts, h => by
    rw [List.cons_append]
    cases hm : f.funcs.marshal with
    | none =>
      rw [marshalFields_cons_none f rest b p opts hm] at h
      rw [marshalFields_cons_none f (rest ++ l2) b p opts hm]
      exact marshalFields_append_ok rest l2 b b1 p opts h
    | some g =>
      by_cases hnil : (f.isPointer && p.fieldNil f.num) = true
      · rw [marshalFields_cons_skip f rest b p opts g hm hnil] at h
        rw [marshalFields_cons_skip f (rest ++ l2) b p opts g hm hnil]
        exact marshalFields_append_ok rest l2 b b1 p opts h
      · rw [Bool.not_eq_true] at hnil
        rw [marshalFields_cons_run f rest b p opts g hm hnil] at h
        rw [marshalFields_cons_run f (rest ++ l2) b p opts g hm hnil]
        cases hg : g b (p.fieldVal f.num) opts with
        | mk b' err =>
          rw [hg] at h
          cases err with
          | none => exact marshalFields_append_ok rest l2 b' b1 p opts h
          | some e => simp at h

/-- Field walk over an appended list when the first part fails. -/
theorem marshalFields_append_err :
    ∀ (l1 : List CoderFieldInfo) (l2 : List CoderFieldInfo) (b b1 : List Nat)
      (p : Msg) (opts : MarshalOptions) (e : Nat),
      marshalFields b p l1 opts = (b1, some e) →
      marshalFields b p (l1 ++ l2) opts = (b1, some e)
  | [], l2, b, b1, p, opts, e, h => by
    rw [marshalFields] at h
    cases h
  | f :: rest, l2, b, b1, p, opts, e, h => by
    rw [List.cons_append]
    cases hm : f.funcs.marshal with
    | none =>
      rw [marshalFields_cons_none f rest b p opts hm] at h
      rw [marshalFields_cons_none f (rest ++ l2) b p opts hm]
      exact marshalFields_append_err rest l2 b b1 p opts e h
    | some g =>
      by_cases hnil : (f.isPointer && p.fieldNil f.num) = true
      · rw [marshalFields_cons_skip f rest b p opts g hm hnil] at h
        rw [marshalFields_cons_skip f (rest ++ l2) b p opts g hm hnil]
        exact marshalFields_append_err rest l2 b b1 p opts e h
      · rw [Bool.not_eq_true] at hnil
        rw [marshalFields_cons_run f rest b p opts g hm hnil] at h
        rw [marshalFields_cons_run f (rest ++ l2) b p opts g hm hnil]
        cases hg : g b (p.fieldVal f.num) opts with
        | mk b' err =>
          rw [hg] at h
          cases err with
          | none => exact marshalFields_append_err rest l2 b' b1 p opts e h
          | some e' => exact h

/-- Single failing step of the field walk. -/
theorem marshalFields_cons_err (f : CoderFieldInfo) (rest : List CoderFieldInfo)
    (b b' : List Nat) (p : Msg) (opts : MarshalOptions)
    (g : List Nat → Nat → MarshalOptions → List Nat × Option Nat) (e : Nat)
    (hg : f.funcs.marshal = some g)
    (hnil : (f.isPointer && p.fieldNil f.num) = false)
    (hres : g b (p.fieldVal f.num) opts = (b', some e)) :
    marshalFields b p (f :: rest) opts = (b', some e) := by
  rw [marshalFields_cons_run f rest b p opts g hg hnil, hres]

/-- C8: the first field-level (or extension-level) encode error aborts the
remaining field walk immediately and is returned with the buffer
accumulated so far: no later field is encoded, the unknown-bytes append
never happens, and nothing is rolled back. -/
theorem C8_first_error_aborts (mi : MessageInfo) (m : Msg) (b b1 : List Nat)
    (opts : MarshalOptions) (e : Nat)
    (hms : (mi.protoLegacy && mi.isMessageSet) = false) :
    (mi.extensionValid = true →
      appendExtensions b m.exts opts = (b1, some e) →
      marshalAppendPointer mi b (some m) opts = (b1, some e))
    ∧ (∀ pre f post g b2 b3,
      mi.orderedCoderFields = pre ++ f :: post →
      (if mi.extensionValid = true then appendExtensions b m.exts opts
       else (b, none)) = (b1, none) →
      marshalFields b1 m pre opts = (b2, none) →
      f.funcs.marshal = some g →
      (f.isPointer && m.fieldNil f.num) = false →
      g b2 (m.fieldVal f.num) opts = (b3, some e) →
      marshalAppendPointer mi b (some m) opts = (b3, some e)) := by
  constructor
  · intro hev herr
    simp [marshalAppendPointer, hms, hev, herr]
  · intro pre f post g b2 b3 hord hif hpre hg hnil herr
    have hwalk : marshalFields b1 m mi.orderedCoderFields opts = (b3, some e) := by
      rw [hord, marshalFields_append_ok pre (f :: post) b1 b2 m opts hpre]
      exact marshalFields_cons_err f post b2 b3 m opts g e hg hnil herr
    simp only [marshalAppendPointer, hms, Bool.false_eq_true, if_false]
    rw [hif]
    simp [hwalk]

/-- Witness for C8: on `c8mi` the failing first field returns its partial
byte and error 5, the following field is never encoded and the unknown
bytes `[77]` are not appended. -/
theorem C8_first_error_aborts_witness :
    marshalAppendPointer c8mi [] (some c8m) plainOpts = ([1], some 5) :=
  (C8_first_error_aborts c8mi c8m [] [] plainOpts 5 rfl).2
    [] c8errField [exField1] (fun b _ _ => (b ++ [1], some 5)) [] [1]
    rfl rfl rfl rfl rfl rfl

/-! ### Claim C2: deterministic extension encoding -/

/-- Uniqueness of a sorted permutation, with antisymmetry needed only on
members of the first list. -/
theorem sorted_perm_unique {α : Type} {R : α → α → Prop} :
    ∀ (l1 l2 : List α), l1.Perm l2 →
      (∀ a, a ∈ l1 → ∀ b, b ∈ l1 → R a b → R b a → a = b) →
      l1.Pairwise R → l2.Pairwise R → l1 = l2
  | [], l2, p, _, _, _ => (List.Perm.eq_nil p.symm).symm
  | _ :: _, [], p, _, _, _ => by
    have := p.length_eq
    simp at this
  | a :: t1, b :: t2, p, anti, s1, s2 => by
    have ha2 : a ∈ b :: t2 := p.mem_iff.mp (List.mem_cons_self a t1)
    have hb1 : b ∈ a :: t1 := p.mem_iff.mpr (List.mem_cons_self b t2)
    have hab : a = b := by
      rcases List.mem_cons.mp ha2 with h | h
      · exact h
      · rcases List.mem_cons.mp hb1 with h' | h'
        · exact h'.symm
        · exact anti a (List.mem_cons_self a t1) b hb1
            ((List.pairwise_cons.mp s1).1 b h')
            ((List.pairwise_cons.mp s2).1 a h)
    subst hab
    have ht : t1 = t2 :=
      sorted_perm_unique t1 t2 p.cons_inv
        (fun x hx y hy =>
          anti x (List.mem_cons_of_mem a hx) y (List.mem_cons_of_mem a hy))
        (List.pairwise_cons.mp s1).2 (List.pairwise_cons.mp s2).2
    rw [ht]

/-- Indexing an association list with distinct keys at the key of one of
its entries returns that entry. -/
theorem extIndex_mem :
    ∀ (l : List (Int × ExtensionField)) (k : Int) (x : ExtensionField),
      (k, x) ∈ l → (l.map (fun e => e.1)).Nodup → extIndex l k = x
  | [], _, _, h, _ => by cases h
  | e :: rest, k, x, h, hnd => by
    rw [List.map_cons, List.nodup_cons] at hnd
    by_cases he : e.1 = k
    · have hfind : (e :: rest).find? (fun a => decide (a.1 = k)) = some e :=
        List.find?_cons_of_pos _ (by simpa using he)
      have hval : extIndex (e :: rest) k = e.2 := by
        simp [extIndex, hfind]
      rcases List.mem_cons.mp h with h' | h'
      · rw [hval, ← h']
      · exfalso
        apply hnd.1
        rw [he]
        exact List.mem_map.mpr ⟨(k, x), h', rfl⟩
    · have hfind : (e :: rest).find? (fun a => decide (a.1 = k))
          = rest.find? (fun a => decide (a.1 = k)) :=
        List.find?_cons_of_neg _ (by simpa using he)
      have hval : extIndex (e :: rest) k = extIndex rest k := by
        simp [extIndex, hfind]
      rcases List.mem_cons.mp h with h' | h'
      · exact absurd (by rw [← h'] : e.1 = k) he
      · rw [hval]
        exact extIndex_mem rest k x h' hnd.2

/-- Indexing at a key absent from the list returns the default. -/
theorem extIndex_not_mem (l : List (Int × ExtensionField)) (k : Int)
    (h : k ∉ l.map (fun e => e.1)) : extIndex l k = defaultExtensionField := by
  have hfind : l.find? (fun e => decide (e.1 = k)) = none := by
    rw [List.find?_eq_none]
    intro e he
    simp only [decide_eq_true_eq]
    intro hk
    exact h (List.mem_map.mpr ⟨e, he, hk⟩)
  simp [extIndex, hfind]

/-- Map indexing agrees across permutations of a distinct-key list. -/
theorem extIndex_perm (l1 l2 : List (Int × ExtensionField)) (p : l1.Perm l2)
    (hnd : (l1.map (fun e => e.1)).Nodup) (k : Int) :
    extIndex l1 k = extIndex l2 k := by
  have hnd2 : (l2.map (fun e => e.1)).Nodup := ((p.map _).nodup_iff).mp hnd
  by_cases hk : k ∈ l1.map (fun e => e.1)
  · obtain ⟨⟨k', v⟩, he, hek⟩ := List.mem_map.mp hk
    cases hek
    rw [extIndex_mem l1 k' v he hnd, extIndex_mem l2 k' v (p.subset he) hnd2]
  · have hk2 : k ∉ l2.map (fun e => e.1) := fun hmem =>
      hk (((p.map (fun e => e.1)).mem_iff).mpr hmem)
    rw [extIndex_not_mem l1 k hk, extIndex_not_mem l2 k hk2]

/-- Key-ordered extension marshaling only consults the list through its
key-to-entry association. -/
theorem marshalExtKeys_congr :
    ∀ (ks : List Int) (l1 l2 : List (Int × ExtensionField)) (b : List Nat)
      (opts : MarshalOptions),
      (∀ k, extIndex l1 k = extIndex l2 k) →
      marshalExtKeys b ks l1 opts = marshalExtKeys b ks l2 opts
  | [], _, _, _, _, _ => rfl
  | k :: ks, l1, l2, b, opts, h => by
    rw [marshalExtKeys, marshalExtKeys, h k]
    cases hres : (extIndex l2 k).info.marshalFn b (extIndex l2 k).value
        (extIndex l2 k).info.wiretag opts with
    | mk b' err =>
      cases err with
      | none => exact marshalExtKeys_congr ks l1 l2 b' opts h
      | some e => rfl

/-- Key-ordered extension marshaling is entry-list marshaling of the
looked-up entries. -/
theorem marshalExtKeys_eq_entryList :
    ∀ (ks : List Int) (l : List (Int × ExtensionField)) (b : List Nat)
      (opts : MarshalOptions),
      marshalExtKeys b ks l opts
        = marshalEntryList b (ks.map (fun k => (k, extIndex l k))) opts
  | [], _, _, _ => rfl
  | k :: ks, l, b, opts => by
    rw [marshalExtKeys, List.map_cons, marshalEntryList]
    cases hres : (extIndex l k).info.marshalFn b (extIndex l k).value
        (extIndex l k).info.wiretag opts with
    | mk b' err =>
      cases err with
      | none => exact marshalExtKeys_eq_entryList ks l b' opts
      | some e => rfl

/-- Lists of pairs with equal key sequences and values determined by the
keys are equal. -/
theorem map_fst_determines {β : Type} (f : Int → β) :
    ∀ (u v : List (Int × β)),
      u.map (fun e => e.1) = v.map (fun e => e.1) →
      (∀ e ∈ u, e.2 = f e.1) → (∀ e ∈ v, e.2 = f e.1) → u = v
  | [], [], _, _, _ => rfl
  | [], _ :: _, h, _, _ => by cases h
  | _ :: _, [], h, _, _ => by cases h
  | (a, x) :: u, (a', x') :: v, h, hu, hv => by
    simp only [List.map_cons] at h
    injection h with h1 h2
    cases h1
    have hx : x = f a := hu (a, x) (List.mem_cons_self _ _)
    have hx' : x' = f a := hv (a, x') (List.mem_cons_self _ _)
    rw [hx, hx',
      map_fst_determines f u v h2
        (fun e he => hu e (List.mem_cons_of_mem _ he))
        (fun e he => hv e (List.mem_cons_of_mem _ he))]

/-- Sorting integers with the decidable comparator yields an ascending
list. -/
theorem mergeSort_int_sorted (l : List Int) :
    (l.mergeSort (fun a b => decide (a ≤ b))).Pairwise (fun a b : Int => a ≤ b) := by
  have h := @List.sorted_mergeSort Int (fun a b => decide (a ≤ b))
    (by intro a b c hab hbc; simp only [decide_eq_true_eq] at hab hbc ⊢; omega)
    (by intro a b; simp only [Bool.or_eq_true, decide_eq_true_eq]; omega) l
  exact h.imp (by intro a b hb; simpa using hb)

/-- Sorting extension entries by key yields a key-ascending list. -/
theorem mergeSort_entries_sorted (l : List (Int × ExtensionField)) :
    (l.mergeSort (fun e1 e2 => decide (e1.1 ≤ e2.1))).Pairwise
      (fun e1 e2 : Int × ExtensionField => e1.1 ≤ e2.1) := by
  have h := @List.sorted_mergeSort (Int × ExtensionField)
    (fun e1 e2 => decide (e1.1 ≤ e2.1))
    (by intro a b c hab hbc; simp only [decide_eq_true_eq] at hab hbc ⊢; omega)
    (by intro a b; simp only [Bool.or_eq_true, decide_eq_true_eq]; omega) l
  exact h.imp (by intro a b hb; simpa using hb)

/-- Unfolding of `appendExtensions` on two or more entries. -/
theorem appendExtensions_two (b : List Nat) (opts : MarshalOptions)
    (e1 e2 : Int × ExtensionField) (rest : List (Int × ExtensionField)) :
    appendExtensions b (some (e1 :: e2 :: rest)) opts
      = marshalExtKeys b
          (((e1 :: e2 :: rest).map (fun e => e.1)).mergeSort (fun a b => decide (a ≤ b)))
          (e1 :: e2 :: rest) opts := rfl

/-- Sorted keys paired with their looked-up entries are exactly the
key-sorted entry list. -/
theorem sortedKeys_entries_eq (l : List (Int × ExtensionField))
    (hnd : (l.map (fun e => e.1)).Nodup) :
    ((l.map (fun e => e.1)).mergeSort (fun a b => decide (a ≤ b))).map
        (fun k => (k, extIndex l k))
      = l.mergeSort (fun e1 e2 => decide (e1.1 ≤ e2.1)) := by
  apply map_fst_determines (fun k => extIndex l k)
  · rw [List.map_map]
    have hid : ((fun e : Int × ExtensionField => e.1) ∘ fun k : Int => (k, extIndex l k))
        = fun k : Int => k := rfl
    rw [hid, List.map_id']
    apply sorted_perm_unique _ _ _
      (fun a _ b _ h1 h2 => le_antisymm h1 h2)
      (mergeSort_int_sorted _)
      ((mergeSort_entries_sorted l).map _ (fun a b h => h))
    exact (List.mergeSort_perm _ _).trans
      (((List.mergeSort_perm l _).map (fun e => e.1)).symm)
  · intro e he
    obtain ⟨k, _, rfl⟩ := List.mem_map.mp he
    rfl
  · intro e he
    have hmem : e ∈ l := (List.mergeSort_perm l _).subset he
    exact (extIndex_mem l e.1 e.2 hmem hnd).symm

/-- C2: `appendExtensions` appends nothing for an absent or empty extension
set; for exactly one entry it invokes that entry's coder directly, skipping
the sorting step; for two or more entries it encodes the entries strictly
in ascending field-number order; and consequently two extension sets with
the same entries attached in different orders produce identical output. -/
theorem C2_extension_determinism :
    (∀ (b : List Nat) (opts : MarshalOptions),
      appendExtensions b none opts = (b, none)
      ∧ appendExtensions b (some []) opts = (b, none))
    ∧ (∀ (b : List Nat) (opts : MarshalOptions) (k : Int) (x : ExtensionField),
      appendExtensions b (some [(k, x)]) opts
        = x.info.marshalFn b x.value x.info.wiretag opts)
    ∧ (∀ (b : List Nat) (opts : MarshalOptions)
        (l : List (Int × ExtensionField)),
      2 ≤ l.length → (l.map (fun e => e.1)).Nodup →
      appendExtensions b (some l) opts = encodeAscending b l opts)
    ∧ (∀ (b : List Nat) (opts : MarshalOptions)
        (l1 l2 : List (Int × ExtensionField)),
      l1.Perm l2 → (l1.map (fun e => e.1)).Nodup →
      appendExtensions b (some l1) opts = appendExtensions b (some l2) opts) := by
  have hmain : ∀ (b : List Nat) (opts : MarshalOptions)
      (l : List (Int × ExtensionField)),
      2 ≤ l.length → (l.map (fun e => e.1)).Nodup →
      appendExtensions b (some l) opts = encodeAscending b l opts := by
    intro b opts l hlen hnd
    match l, hlen with
    | e1 :: e2 :: rest, _ =>
      rw [appendExtensions_two, marshalExtKeys_eq_entryList]
      unfold encodeAscending
      rw [sortedKeys_entries_eq _ hnd]
  refine ⟨fun b opts => ⟨rfl, rfl⟩, fun b opts k x => rfl, hmain, ?_⟩
  intro b opts l1 l2 p hnd
  cases l1 with
  | nil =>
    rw [← List.Perm.eq_nil p.symm]
  | cons e1 t1 =>
    cases t1 with
    | nil =>
      rw [List.perm_singleton.mp p.symm]
    | cons e2 rest =>
      have hlen1 : 2 ≤ (e1 :: e2 :: rest).length := by simp
      have hlen2 : 2 ≤ l2.length := by
        rw [← p.length_eq]; exact hlen1
      have hnd2 : (l2.map (fun e => e.1)).Nodup := ((p.map _).nodup_iff).mp hnd
      rw [hmain b opts _ hlen1 hnd, hmain b opts l2 hlen2 hnd2]
      unfold encodeAscending
      rw [← sortedKeys_entries_eq _ hnd, ← sortedKeys_entries_eq l2 hnd2,
        ← marshalExtKeys_eq_entryList, ← marshalExtKeys_eq_entryList]
      have hkeys : ((e1 :: e2 :: rest).map (fun e => e.1)).mergeSort
            (fun a b => decide (a ≤ b))
          = (l2.map (fun e => e.1)).mergeSort (fun a b => decide (a ≤ b)) := by
        apply sorted_perm_unique _ _ _
          (fun a _ b _ h1 h2 => le_antisymm h1 h2)
          (mergeSort_int_sorted _) (mergeSort_int_sorted _)
        exact (List.mergeSort_perm _ _).trans
          ((p.map (fun e => e.1)).trans (List.mergeSort_perm _ _).symm)
      rw [hkeys]
      exact marshalExtKeys_congr _ _ l2 b opts (extIndex_perm _ l2 p hnd)

/-- Witness for C2 on the concrete out-of-order two-entry map `c2l`:
encoding proceeds in ascending key order. -/
theorem C2_extension_determinism_witness :
    appendExtensions [] (some c2l) plainOpts = encodeAscending [] c2l plainOpts :=
  C2_extension_determinism.2.2.1 [] plainOpts c2l (by decide)
    (by simp [c2l, exExt])

/-! ### Claim C5: overall byte order of marshal -/

/-- Default extension marshal function is an appender. -/
theorem defaultExt_appender : ExtAppender defaultExtensionField.info.marshalFn := by
  intro b v w opts
  constructor <;> simp [defaultExtensionField]

/-- Map indexing preserves the appender property. -/
theorem extIndex_appender (l : List (Int × ExtensionField)) (k : Int)
    (h : ∀ e ∈ l, ExtAppender e.2.info.marshalFn) :
    ExtAppender (extIndex l k).info.marshalFn := by
  unfold extIndex
  cases hf : l.find? (fun e => decide (e.1 = k)) with
  | none => exact defaultExt_appender
  | some e => exact h e (List.mem_of_find?_eq_some hf)

/-- Key-ordered extension marshaling of appenders only ever appends, with
the appended bytes and error independent of the initial buffer. -/
theorem marshalExtKeys_shift :
    ∀ (ks : List Int) (l : List (Int × ExtensionField)) (b : List Nat)
      (opts : MarshalOptions),
      (∀ e ∈ l, ExtAppender e.2.info.marshalFn) →
      marshalExtKeys b ks l opts
        = (b ++ (marshalExtKeys [] ks l opts).1, (marshalExtKeys [] ks l opts).2)
  | [], _, b, _, _ => by simp [marshalExtKeys]
  | k :: ks, l, b, opts, h => by
    have app := extIndex_appender l k h
    rw [marshalExtKeys, marshalExtKeys]
    cases hg0 : (extIndex l k).info.marshalFn [] (extIndex l k).value
        (extIndex l k).info.wiretag opts with
    | mk o er =>
      have hgb : (extIndex l k).info.marshalFn b (extIndex l k).value
          (extIndex l k).info.wiretag opts = (b ++ o, er) := by
        have h1 := (app b (extIndex l k).value (extIndex l k).info.wiretag opts).1
        have h2 := (app b (extIndex l k).value (extIndex l k).info.wiretag opts).2
        rw [hg0] at h1 h2
        cases hx : (extIndex l k).info.marshalFn b (extIndex l k).value
            (extIndex l k).info.wiretag opts with
        | mk p q =>
          rw [hx] at h1 h2
          simp only at h1 h2
          rw [h1, h2]
      rw [hgb]
      cases er with
      | none =>
        show marshalExtKeys (b ++ o) ks l opts
            = (b ++ (marshalExtKeys o ks l opts).1, (marshalExtKeys o ks l opts).2)
        rw [marshalExtKeys_shift ks l (b ++ o) opts h,
          marshalExtKeys_shift ks l o opts h]
        simp [List.append_assoc]
      | some e => rfl

/-- `appendExtensions` over appenders only ever appends. -/
theorem appendExtensions_shift (b : List Nat)
    (ext : Option (List (Int × ExtensionField))) (opts : MarshalOptions)
    (h : ∀ e ∈ ext.getD [], ExtAppender e.2.info.marshalFn) :
    appendExtensions b ext opts
      = (b ++ (appendExtensions [] ext opts).1, (appendExtensions [] ext opts).2) := by
  cases ext with
  | none => simp [appendExtensions]
  | some l =>
    cases l with
    | nil => simp [appendExtensions]
    | cons e1 t =>
      cases t with
      | nil =>
        have app := h e1 (by simp)
        show e1.2.info.marshalFn b e1.2.value e1.2.info.wiretag opts = _
        obtain ⟨h1, h2⟩ := app b e1.2.value e1.2.info.wiretag opts
        cases hx : e1.2.info.marshalFn b e1.2.value e1.2.info.wiretag opts with
        | mk p q =>
          rw [hx] at h1 h2
          simp only at h1 h2
          rw [h1, h2]
          rfl
      | cons e2 rest =>
        rw [appendExtensions_two, appendExtensions_two]
        exact marshalExtKeys_shift _ _ b opts (by simpa using h)

/-- Field walk over appenders only ever appends. -/
theorem marshalFields_shift :
    ∀ (fs : List CoderFieldInfo) (b : List Nat) (p : Msg)
      (opts : MarshalOptions),
      (∀ f ∈ fs, ∀ g, f.funcs.marshal = some g → Appender g) →
      marshalFields b p fs opts
        = (b ++ (marshalFields [] p fs opts).1, (marshalFields [] p fs opts).2)
  | [], b, _, _, _ => by simp [marshalFields]
  | f :: rest, b, p, opts, h => by
    have hrest : ∀ f' ∈ rest, ∀ g, f'.funcs.marshal = some g → Appender g :=
      fun f' hf' => h f' (List.mem_cons_of_mem _ hf')
    cases hm : f.funcs.marshal with
    | none =>
      rw [marshalFields_cons_none f rest b p opts hm,
        marshalFields_cons_none f rest [] p opts hm]
      exact marshalFields_shift rest b p opts hrest
    | some g =>
      have app : Appender g := h f (List.mem_cons_self _ _) g hm
      by_cases hnil : (f.isPointer && p.fieldNil f.num) = true
      · rw [marshalFields_cons_skip f rest b p opts g hm hnil,
          marshalFields_cons_skip f rest [] p opts g hm hnil]
        exact marshalFields_shift rest b p opts hrest
      · rw [Bool.not_eq_true] at hnil
        rw [marshalFields_cons_run f rest b p opts g hm hnil,
          marshalFields_cons_run f rest [] p opts g hm hnil]
        cases hg0 : g [] (p.fieldVal f.num) opts with
        | mk o er =>
          have hgb : g b (p.fieldVal f.num) opts = (b ++ o, er) := by
            have h1 := (app b (p.fieldVal f.num) opts).1
            have h2 := (app b (p.fieldVal f.num) opts).2
            rw [hg0] at h1 h2
            cases hx : g b (p.fieldVal f.num) opts with
            | mk u v =>
              rw [hx] at h1 h2
              simp only at h1 h2
              rw [h1, h2]
          rw [hgb]
          cases er with
          | none =>
            show marshalFields (b ++ o) p rest opts
                = (b ++ (marshalFields o p rest opts).1,
                   (marshalFields o p rest opts).2)
            rw [marshalFields_shift rest (b ++ o) p opts hrest,
              marshalFields_shift rest o p opts hrest]
            simp [List.append_assoc]
          | some e => rfl

/-- Canonical (non-message-set) marshal path, with both stages succeeding,
splits into the extension stage, the ordered-field stage and the
unknown-bytes append. -/
theorem marshalAppendPointer_canonical (mi : MessageInfo) (m : Msg)
    (b b1 b2 : List Nat) (opts : MarshalOptions)
    (hms : (mi.protoLegacy && mi.isMessageSet) = false)
    (h1 : (if mi.extensionValid = true then appendExtensions b m.exts opts
           else (b, none)) = (b1, none))
    (h2 : marshalFields b1 m mi.orderedCoderFields opts = (b2, none)) :
    marshalAppendPointer mi b (some m) opts
      = (if mi.unknownValid && !mi.isMessageSet then (b2 ++ m.unknown, none)
         else (b2, none)) := by
  simp only [marshalAppendPointer, hms, Bool.false_eq_true, if_false]
  rw [h1]
  simp only [h2]

/-- C5: for a non-nil, non-message-set instance, marshal appends — in this
order — the extension set's encoding, then each ordered field's encoding
(in list order, skipping fields with no encode function and nil
pointer-like fields, a skipping already part of the field-walk function),
then the raw unknown-bytes blob verbatim when the type has that slot. -/
theorem C5_marshal_byte_order (mi : MessageInfo) (m : Msg) (b E F : List Nat)
    (opts : MarshalOptions)
    (hms : mi.isMessageSet = false)
    (hext : ∀ e ∈ m.exts.getD [], ExtAppender e.2.info.marshalFn)
    (hfld : ∀ f ∈ mi.orderedCoderFields, ∀ g, f.funcs.marshal = some g → Appender g)
    (hE : appendExtensions [] m.exts opts = (E, none))
    (hF : marshalFields [] m mi.orderedCoderFields opts = (F, none)) :
    marshalAppendPointer mi b (some m) opts
      = (b ++ (if mi.extensionValid = true then E else []) ++ F
          ++ (if mi.unknownValid = true then m.unknown else []), none) := by
  have hms' : (mi.protoLegacy && mi.isMessageSet) = false := by
    rw [hms]; simp
  have hstep1 : (if mi.extensionValid = true then appendExtensions b m.exts opts
      else (b, none)) = (b ++ (if mi.extensionValid = true then E else []), none) := by
    by_cases hev : mi.extensionValid = true
    · rw [if_pos hev, if_pos hev, appendExtensions_shift b m.exts opts hext, hE]
    · rw [if_neg hev, if_neg hev]
      simp
  have hstep2 : marshalFields (b ++ (if mi.extensionValid = true then E else []))
      m mi.orderedCoderFields opts
      = (b ++ (if mi.extensionValid = true then E else []) ++ F, none) := by
    rw [marshalFields_shift _ _ _ _ hfld, hF]
  rw [marshalAppendPointer_canonical mi m b _ _ opts hms' hstep1 hstep2]
  by_cases hu : mi.unknownValid = true
  · rw [if_pos hu]
    simp [hms, hu]
  · rw [if_neg hu]
    have hu' : mi.unknownValid = false := by
      cases hval : mi.unknownValid
      · rfl
      · exact absurd hval hu
    simp [hms, hu']

/-- Witness for C5 on `c5mi`: one extension byte 9, one field byte 7, then
the unknown bytes 1 and 2, in that order. -/
theorem C5_marshal_byte_order_witness :
    marshalAppendPointer c5mi [] (some c5m) plainOpts
      = ([] ++ (if c5mi.extensionValid = true then [9] else []) ++ [7]
          ++ (if c5mi.unknownValid = true then c5m.unknown else []), none) :=
  C5_marshal_byte_order c5mi c5m [] [9] [7] plainOpts rfl
    (by
      intro e he opts
      simp [c5m] at he
      intro b v w
      rw [he]
      simp [exExt])
    (by
      intro f hf g hg
      simp [c5mi] at hf
      rw [hf] at hg
      simp [exField1] at hg
      intro b v opts
      rw [← hg]
      simp)
    rfl rfl

/-! ### Claim C1: marshaled length equals computed size -/

/-- Step of the size walk for a field with no size function. -/
theorem sizeFields_cons_none (f : CoderFieldInfo) (rest : List CoderFieldInfo)
    (acc : Nat) (p : Msg) (opts : MarshalOptions)
    (hs : f.funcs.size = none) :
    sizeFields acc p (f :: rest) opts = sizeFields acc p rest opts := by
  rw [sizeFields, hs]

/-- Step of the size walk for a nil pointer-like field. -/
theorem sizeFields_cons_skip (f : CoderFieldInfo) (rest : List CoderFieldInfo)
    (acc : Nat) (p : Msg) (opts : MarshalOptions)
    (s : Nat → MarshalOptions → Nat) (hs : f.funcs.size = some s)
    (hnil : (f.isPointer && p.fieldNil f.num) = true) :
    sizeFields acc p (f :: rest) opts = sizeFields acc p rest opts := by
  rw [sizeFields, hs]
  simp [hnil]

/-- Step of the size walk for a field that is actually counted. -/
theorem sizeFields_cons_run (f : CoderFieldInfo) (rest : List CoderFieldInfo)
    (acc : Nat) (p : Msg) (opts : MarshalOptions)
    (s : Nat → MarshalOptions → Nat) (hs : f.funcs.size = some s)
    (hnil : (f.isPointer && p.fieldNil f.num) = false) :
    sizeFields acc p (f :: rest) opts
      = sizeFields (acc + s (p.fieldVal f.num) opts) p rest opts := by
  rw [sizeFields, hs]
  simp [hnil]

/-- Accumulator of the size walk splits off additively. -/
theorem sizeFields_acc :
    ∀ (fs : List CoderFieldInfo) (acc : Nat) (p : Msg) (opts : MarshalOptions),
      sizeFields acc p fs opts = acc + sizeFields 0 p fs opts
  | [], acc, p, opts => by simp [sizeFields]
  | f :: rest, acc, p, opts => by
    cases hs : f.funcs.size with
    | none =>
      rw [sizeFields_cons_none f rest acc p opts hs,
        sizeFields_cons_none f rest 0 p opts hs]
      exact sizeFields_acc rest acc p opts
    | some s =>
      by_cases hnil : (f.isPointer && p.fieldNil f.num) = true
      · rw [sizeFields_cons_skip f rest acc p opts s hs hnil,
          sizeFields_cons_skip f rest 0 p opts s hs hnil]
        exact sizeFields_acc rest acc p opts
      · rw [Bool.not_eq_true] at hnil
        rw [sizeFields_cons_run f rest acc p opts s hs hnil,
          sizeFields_cons_run f rest 0 p opts s hs hnil,
          sizeFields_acc rest (acc + s (p.fieldVal f.num) opts) p opts,
          sizeFields_acc rest (0 + s (p.fieldVal f.num) opts) p opts]
        omega

/-- Fold of `sizeExtensions` in terms of per-entry sizes. -/
theorem sizeExtensions_foldl :
    ∀ (l : List (Int × ExtensionField)) (opts : MarshalOptions) (acc : Nat),
      l.foldl
        (fun n e =>
          match e.2.info.sizeFn with
          | none => n
          | some s => n + s e.2.value e.2.info.tagsize opts)
        acc
      = acc + (l.map (fun e => extSize e.2 opts)).sum
  | [], _, acc => by simp
  | e :: rest, opts, acc => by
    rw [List.foldl_cons, List.map_cons, List.sum_cons]
    cases hs : e.2.info.sizeFn with
    | none =>
      simp only [hs]
      rw [sizeExtensions_foldl rest opts acc]
      simp [extSize, hs]
    | some s =>
      simp only [hs]
      rw [sizeExtensions_foldl rest opts (acc + s e.2.value e.2.info.tagsize opts)]
      simp only [extSize, hs]
      rw [Nat.add_assoc]

/-- Extension sizing is the sum of the entries' sizes. -/
theorem sizeExtensions_eq_sum (l : List (Int × ExtensionField))
    (opts : MarshalOptions) :
    sizeExtensions (some l) opts = (l.map (fun e => extSize e.2 opts)).sum := by
  show l.foldl _ 0 = _
  rw [sizeExtensions_foldl]
  rw [Nat.zero_add]

/-- Key-ordered marshaling of coherent extensions succeeds, appends, and
its output length is the sum of the entries' sizes. -/
theorem marshalExtKeys_coherent :
    ∀ (ks : List Int) (l : List (Int × ExtensionField)) (b : List Nat)
      (opts : MarshalOptions),
      (∀ k ∈ ks, ExtCoherent (extIndex l k)) →
      ∃ out, marshalExtKeys b ks l opts = (b ++ out, none)
        ∧ out.length = (ks.map (fun k => extSize (extIndex l k) opts)).sum
  | [], _, b, _, _ => ⟨[], by simp [marshalExtKeys], by simp⟩
  | k :: ks, l, b, opts, h => by
    obtain ⟨s, hs, hfn⟩ := h k (List.mem_cons_self _ _)
    obtain ⟨o, hgo, hglen⟩ := hfn b opts
    obtain ⟨out, ho, hl⟩ :=
      marshalExtKeys_coherent ks l (b ++ o) opts
        (fun k' hk' => h k' (List.mem_cons_of_mem _ hk'))
    refine ⟨o ++ out, ?_, ?_⟩
    · rw [marshalExtKeys, hgo]
      show marshalExtKeys (b ++ o) ks l opts = (b ++ (o ++ out), none)
      rw [ho, List.append_assoc]
    · rw [List.map_cons, List.sum_cons]
      simp only [List.length_append, hglen, hl, extSize, hs]

/-- `appendExtensions` over coherent distinct-key entries succeeds, appends,
and its output length is `sizeExtensions`. -/
theorem appendExtensions_coherent (l : List (Int × ExtensionField))
    (b : List Nat) (opts : MarshalOptions)
    (hco : ∀ e ∈ l, ExtCoherent e.2)
    (hnd : (l.map (fun e => e.1)).Nodup) :
    ∃ out, appendExtensions b (some l) opts = (b ++ out, none)
      ∧ out.length = sizeExtensions (some l) opts := by
  cases l with
  | nil => exact ⟨[], by simp [appendExtensions], by simp [sizeExtensions]⟩
  | cons e1 t =>
    cases t with
    | nil =>
      obtain ⟨s, hs, hfn⟩ := hco e1 (by simp)
      obtain ⟨o, hgo, hglen⟩ := hfn b opts
      refine ⟨o, ?_, ?_⟩
      · show e1.2.info.marshalFn b e1.2.value e1.2.info.wiretag opts = _
        exact hgo
      · rw [hglen, sizeExtensions_eq_sum]
        simp [extSize, hs]
    | cons e2 rest =>
      rw [appendExtensions_two]
      have hks : ∀ k ∈ ((e1 :: e2 :: rest).map (fun e => e.1)).mergeSort
          (fun a b => decide (a ≤ b)), ExtCoherent (extIndex (e1 :: e2 :: rest) k) := by
        intro k hk
        have hk' : k ∈ (e1 :: e2 :: rest).map (fun e => e.1) :=
          List.mem_mergeSort.mp hk
        obtain ⟨⟨k', v⟩, he, hek⟩ := List.mem_map.mp hk'
        cases hek
        rw [extIndex_mem _ k' v he hnd]
        exact hco (k', v) he
      obtain ⟨out, ho, hl⟩ := marshalExtKeys_coherent _ _ b opts hks
      refine ⟨out, ho, ?_⟩
      rw [hl, sizeExtensions_eq_sum]
      have hperm := List.mergeSort_perm ((e1 :: e2 :: rest).map (fun e => e.1))
        (fun a b => decide (a ≤ b))
      rw [List.Perm.sum_eq
        (hperm.map (fun k => extSize (extIndex (e1 :: e2 :: rest) k) opts)),
        List.map_map]
      apply congrArg List.sum
      apply List.map_congr_left
      intro e he
      cases e with
      | mk k' v =>
        show extSize (extIndex (e1 :: e2 :: rest) k') opts = extSize v opts
        rw [extIndex_mem _ k' v he hnd]

/-- Field walk over coherent fields succeeds, appends, and its output
length is the size walk's total. -/
theorem marshalFields_coherent :
    ∀ (fs : List CoderFieldInfo) (b : List Nat) (p : Msg)
      (opts : MarshalOptions),
      (∀ f ∈ fs, FieldCoherent f) →
      ∃ out, marshalFields b p fs opts = (b ++ out, none)
        ∧ out.length = sizeFields 0 p fs opts
  | [], b, p, opts, _ => ⟨[], by simp [marshalFields], by simp [sizeFields]⟩
  | f :: rest, b, p, opts, h => by
    have hrest : ∀ f' ∈ rest, FieldCoherent f' :=
      fun f' hf' => h f' (List.mem_cons_of_mem _ hf')
    rcases h f (List.mem_cons_self _ _) with ⟨hs, hm⟩ | ⟨s, g, hs, hm, hco⟩
    · obtain ⟨out, ho, hl⟩ := marshalFields_coherent rest b p opts hrest
      exact ⟨out,
        by rw [marshalFields_cons_none f rest b p opts hm]; exact ho,
        by rw [sizeFields_cons_none f rest 0 p opts hs]; exact hl⟩
    · by_cases hnil : (f.isPointer && p.fieldNil f.num) = true
      · obtain ⟨out, ho, hl⟩ := marshalFields_coherent rest b p opts hrest
        exact ⟨out,
          by rw [marshalFields_cons_skip f rest b p opts g hm hnil]; exact ho,
          by rw [sizeFields_cons_skip f rest 0 p opts s hs hnil]; exact hl⟩
      · rw [Bool.not_eq_true] at hnil
        obtain ⟨o, hgo, hglen⟩ := hco b (p.fieldVal f.num) opts
        obtain ⟨out, ho, hl⟩ := marshalFields_coherent rest (b ++ o) p opts hrest
        refine ⟨o ++ out, ?_, ?_⟩
        · rw [marshalFields_cons_run f rest b p opts g hm hnil, hgo]
          show marshalFields (b ++ o) p rest opts = (b ++ (o ++ out), none)
          rw [ho, List.append_assoc]
        · rw [sizeFields_cons_run f rest 0 p opts s hs hnil,
            sizeFields_acc rest (0 + s (p.fieldVal f.num) opts) p opts]
          simp only [List.length_append, hglen, hl]
          omega

/-- Canonical slow-path size as the sum of its three stages. -/
theorem sizePointerSlow_canonical (mi : MessageInfo) (m : Msg)
    (opts : MarshalOptions)
    (hms : (mi.protoLegacy && mi.isMessageSet) = false) :
    (sizePointerSlow mi m opts).1
      = (if mi.extensionValid = true then sizeExtensions m.exts opts else 0)
        + sizeFields 0 m mi.orderedCoderFields opts
        + (if mi.unknownValid = true then m.unknown.length else 0) := by
  simp only [sizePointerSlow, hms, Bool.false_eq_true, if_false]
  rw [sizeFields_acc]

/-- C1 (amended): whenever cache reuse is not in effect (not requested or
no cache slot), and the per-field, per-extension and message-set coders
append exactly as many bytes as they report (the registry contract,
external to these source files), marshal appends exactly `size` bytes and
never fails; and a nil instance marshals to nothing with size 0.  With
cache reuse in effect the equality can fail (see the counterexample). -/
theorem C1_marshal_size_agree (mi : MessageInfo) (m : Msg) (b : List Nat)
    (opts : MarshalOptions)
    (hflds : ∀ f ∈ mi.orderedCoderFields, FieldCoherent f)
    (hexts : ∀ e ∈ m.exts.getD [], ExtCoherent e.2)
    (hnd : ((m.exts.getD []).map (fun e => e.1)).Nodup)
    (hmsgset : MsgSetCoherent mi m)
    (hlegacy : mi.isMessageSet = true → mi.protoLegacy = true)
    (hnc : (opts.useCachedSize && mi.sizecacheValid) = false) :
    (marshalAppendPointer mi b none opts = (b, none)
      ∧ sizePointer mi none opts = (0, none))
    ∧ ∃ out, marshalAppendPointer mi b (some m) opts = (b ++ out, none)
        ∧ (sizePointer mi (some m) opts).1 = (out.length : Int) := by
  refine ⟨⟨rfl, rfl⟩, ?_⟩
  have hsp : (sizePointer mi (some m) opts).1
      = ((sizePointerSlow mi m opts).1 : Int) := by
    simp [sizePointer, MarshalOptions.UseCachedSize, hnc]
  by_cases hms : (mi.protoLegacy && mi.isMessageSet) = true
  · obtain ⟨out, hmar, hlen⟩ := hmsgset b opts
    have hslow : (sizePointerSlow mi m opts).1 = mi.sizeMessageSet m opts := by
      simp [sizePointerSlow, hms]
    refine ⟨out, ?_, ?_⟩
    · simp [marshalAppendPointer, hms, hmar]
    · rw [hsp, hslow, ← hlen]
  · have hms' : (mi.protoLegacy && mi.isMessageSet) = false := by
      cases h : (mi.protoLegacy && mi.isMessageSet)
      · rfl
      · exact absurd h hms
    have hmsf : mi.isMessageSet = false := by
      cases h : mi.isMessageSet
      · rfl
      · rw [hlegacy h, h] at hms'
        simp at hms'
    have hextstage : ∃ E,
        (if mi.extensionValid = true then appendExtensions b m.exts opts
         else (b, none)) = (b ++ E, none)
        ∧ E.length
          = (if mi.extensionValid = true then sizeExtensions m.exts opts else 0) := by
      by_cases hev : mi.extensionValid = true
      · rw [if_pos hev, if_pos hev]
        cases hexts0 : m.exts with
        | none => exact ⟨[], by simp [appendExtensions], by simp [sizeExtensions]⟩
        | some l =>
          have h1 : ∀ e ∈ l, ExtCoherent e.2 := by
            rw [hexts0] at hexts
            simpa using hexts
          have h2 : (l.map (fun e => e.1)).Nodup := by
            rw [hexts0] at hnd
            simpa using hnd
          exact appendExtensions_coherent l b opts h1 h2
      · rw [if_neg hev, if_neg hev]
        exact ⟨[], by simp, rfl⟩
    obtain ⟨E, h1, hElen⟩ := hextstage
    obtain ⟨F, h2, hFlen⟩ :=
      marshalFields_coherent mi.orderedCoderFields (b ++ E) m opts hflds
    have hmar := marshalAppendPointer_canonical mi m b (b ++ E) (b ++ E ++ F)
      opts hms' h1 h2
    refine ⟨E ++ F ++ (if mi.unknownValid = true then m.unknown else []), ?_, ?_⟩
    · rw [hmar]
      by_cases hu : mi.unknownValid = true
      · simp [hu, hmsf, List.append_assoc]
      · have hu' : mi.unknownValid = false := by
          cases h : mi.unknownValid
          · rfl
          · exact absurd h hu
        simp [hu', List.append_assoc]
    · rw [hsp, sizePointerSlow_canonical mi m opts hms']
      have hulen : (E ++ F ++ (if mi.unknownValid = true then m.unknown else [])).length
          = E.length + F.length
            + (if mi.unknownValid = true then m.unknown.length else 0) := by
        by_cases hu : mi.unknownValid = true
        · simp [hu]
          omega
        · simp [hu]
      rw [hulen, hElen, hFlen]

/-- Counterexample to C1 as stated: on `c1mi` with cache reuse requested,
marshal appends one byte while size returns the stale cached 0. -/
theorem C1_counterexample :
    (marshalAppendPointer c1mi [] (some c1m) cachedOpts).1.length = 1
    ∧ (sizePointer c1mi (some c1m) cachedOpts).1 = 0
    ∧ ((marshalAppendPointer c1mi [] (some c1m) cachedOpts).1.length : Int)
        ≠ (sizePointer c1mi (some c1m) cachedOpts).1 := by
  refine ⟨?_, ?_, ?_⟩ <;> decide

/-! ### Builder lemmas for claims C6 and C7 -/

/-- Sorting naturals with the decidable comparator yields an ascending
list. -/
theorem mergeSort_nat_sorted (l : List Nat) :
    (l.mergeSort (fun a b => decide (a ≤ b))).Pairwise (fun a b : Nat => a ≤ b) := by
  have h := @List.sorted_mergeSort Nat (fun a b => decide (a ≤ b))
    (by intro a b c hab hbc; simp only [decide_eq_true_eq] at hab hbc ⊢; omega)
    (by intro a b; simp only [Bool.or_eq_true, decide_eq_true_eq]; omega) l
  exact h.imp (by intro a b hb; simpa using hb)

/-- `sortSlice` permutes its input. -/
theorem sortSlice_perm {α : Type} (less : α → α → Bool) (l : List α) :
    (sortSlice less l).Perm l :=
  List.mergeSort_perm l _

/-- The builder's ascending sort produces a number-ascending list. -/
theorem sortSlice_lt_sorted (cfs : List CoderFieldInfo) :
    (sortSlice (fun a b => decide (a.num < b.num)) cfs).Pairwise
      (fun a b : CoderFieldInfo => a.num ≤ b.num) := by
  have h := @List.sorted_mergeSort CoderFieldInfo
    (fun a b => !decide (b.num < a.num))
    (by
      intro a b c hab hbc
      simp only [Bool.not_eq_true', decide_eq_false_iff_not] at hab hbc ⊢
      omega)
    (by
      intro a b
      simp only [Bool.or_eq_true, Bool.not_eq_true', decide_eq_false_iff_not]
      omega)
    cfs
  exact h.imp (by
    intro a b hb
    simp only [Bool.not_eq_true', decide_eq_false_iff_not] at hb
    omega)

/-- Field number of a built record. -/
theorem buildCoderField_num
    (fieldCoder weakCoder oneofCoder : FieldDesc → PointerCoderFuncs)
    (fd : FieldDesc) :
    (buildCoderField fieldCoder weakCoder oneofCoder fd).num = fd.num := rfl

/-- Numbers of the built record list are the descriptor numbers. -/
theorem cfs_map_num (fieldCoder weakCoder oneofCoder : FieldDesc → PointerCoderFuncs)
    (fields : List FieldDesc) :
    (fields.map (buildCoderField fieldCoder weakCoder oneofCoder)).map
        (fun cf => cf.num)
      = fields.map (fun fd => fd.num) := by
  rw [List.map_map]
  rfl

/-- Numbers of the ascending-sorted record list are the merge-sorted
numbers. -/
theorem sorted_map_num (cfs : List CoderFieldInfo) :
    (sortSlice (fun a b => decide (a.num < b.num)) cfs).map (fun cf => cf.num)
      = (cfs.map (fun cf => cf.num)).mergeSort (fun a b => decide (a ≤ b)) := by
  apply sorted_perm_unique _ _ _
    (fun a _ b _ h1 h2 => Nat.le_antisymm h1 h2)
    ((sortSlice_lt_sorted cfs).map _ (fun a b h => h))
    (mergeSort_nat_sorted _)
  exact ((sortSlice_perm _ cfs).map _).trans (List.mergeSort_perm _ _).symm

/-- The builder's dense-cutoff scan matches the spec's description of the
heuristic on the number list. -/
theorem maxDenseLoop_eq_spec :
    ∀ (cfs : List CoderFieldInfo) (m : Nat),
      maxDenseLoop cfs m = specDenseCutoff (cfs.map (fun cf => cf.num)) m
  | [], _ => rfl
  | cf :: rest, m => by
    rw [maxDenseLoop, List.map_cons, specDenseCutoff]
    by_cases h1 : 16 ≤ cf.num
    · by_cases h2 : 2 * m ≤ cf.num
      · simp [h1, h2]
      · simp [h1, h2, maxDenseLoop_eq_spec rest cf.num]
    · simp [h1, maxDenseLoop_eq_spec rest cf.num]

/-- The dense fill loop preserves the array length. -/
theorem denseFill_length :
    ∀ (cfs : List CoderFieldInfo) (d : List (Option CoderFieldInfo)),
      (denseFill cfs d).length = d.length
  | [], _ => rfl
  | cf :: rest, d => by
    rw [denseFill]
    by_cases h : d.length < cf.num
    · rw [if_pos h]
    · rw [if_neg h, denseFill_length rest _, List.length_set]

/-- Reading a just-set in-range entry. -/
theorem getD_set_eq (d : List (Option CoderFieldInfo)) (n : Nat)
    (x : Option CoderFieldInfo) (h : n < d.length) :
    (d.set n x).getD n none = x := by
  simp [List.getD_eq_getElem?_getD, List.getElem?_set_self', h]

/-- Reading an entry other than the one just set. -/
theorem getD_set_ne (d : List (Option CoderFieldInfo)) (m n : Nat)
    (x : Option CoderFieldInfo) (h : m ≠ n) :
    (d.set m x).getD n none = d.getD n none := by
  simp [List.getD_eq_getElem?_getD, List.getElem?_set_ne, h]

/-- Searching a distinct-number record list for a member's number finds
that member. -/
theorem find?_num_unique :
    ∀ (cfs : List CoderFieldInfo) (cf : CoderFieldInfo),
      (cfs.map (fun c => c.num)).Nodup → cf ∈ cfs →
      cfs.find? (fun c => decide (c.num = cf.num)) = some cf
  | [], _, _, hmem => absurd hmem (by simp)
  | c :: rest, cf, hnd, hmem => by
    rw [List.map_cons, List.nodup_cons] at hnd
    rcases List.mem_cons.mp hmem with h | h
    · subst h
      exact List.find?_cons_of_pos _ (by simp)
    · have hne : c.num ≠ cf.num := fun he =>
        hnd.1 (he ▸ List.mem_map.mpr ⟨cf, h, rfl⟩)
      rw [List.find?_cons_of_neg _ (by simpa using hne)]
      exact find?_num_unique rest cf hnd.2 h

/-- Searching for a number no record carries finds nothing. -/
theorem find?_num_none (cfs : List CoderFieldInfo) (n : Nat)
    (h : ∀ cf ∈ cfs, cf.num ≠ n) :
    cfs.find? (fun c => decide (c.num = n)) = none := by
  rw [List.find?_eq_none]
  intro cf hcf
  simpa using h cf hcf

/-- Folding map insertions never touches other numbers. -/
theorem coderMap_not_mem :
    ∀ (cfs : List CoderFieldInfo) (mp : Nat → Option CoderFieldInfo) (n : Nat),
      (∀ cf ∈ cfs, cf.num ≠ n) →
      cfs.foldl coderFieldsInsert mp n = mp n
  | [], _, _, _ => rfl
  | cf :: rest, mp, n, h => by
    rw [List.foldl_cons,
      coderMap_not_mem rest _ n (fun c hc => h c (List.mem_cons_of_mem _ hc))]
    show (if n = cf.num then some cf else mp n) = mp n
    rw [if_neg (fun he => (h cf (List.mem_cons_self _ _)) he.symm)]

/-- Folding map insertions of distinct-number records maps each member's
number to that member. -/
theorem coderMap_mem :
    ∀ (cfs : List CoderFieldInfo) (mp : Nat → Option CoderFieldInfo)
      (cf : CoderFieldInfo),
      (cfs.map (fun c => c.num)).Nodup → cf ∈ cfs →
      cfs.foldl coderFieldsInsert mp cf.num = some cf
  | [], _, _, _, hmem => absurd hmem (by simp)
  | c :: rest, mp, cf, hnd, hmem => by
    rw [List.map_cons, List.nodup_cons] at hnd
    rw [List.foldl_cons]
    rcases List.mem_cons.mp hmem with h | h
    · subst h
      rw [coderMap_not_mem rest _ cf.num
        (fun c' hc' he => hnd.1 (he ▸ List.mem_map.mpr ⟨c', hc', rfl⟩))]
      show (if cf.num = cf.num then some cf else mp cf.num) = some cf
      rw [if_pos rfl]
    · exact coderMap_mem rest _ cf hnd.2 h

/-- Dense array lookup after filling from an ascending distinct-number
list: the entry at an in-range index is the record with that number when
one exists, and the original entry otherwise. -/
theorem denseFill_getD :
    ∀ (cfs : List CoderFieldInfo) (d : List (Option CoderFieldInfo)) (n : Nat),
      n < d.length →
      (cfs.map (fun c => c.num)).Nodup →
      cfs.Pairwise (fun a b => a.num ≤ b.num) →
      (denseFill cfs d).getD n none
        = match cfs.find? (fun c => decide (c.num = n)) with
          | some cf => some cf
          | none => d.getD n none
  | [], d, n, _, _, _ => by simp [denseFill, List.find?]
  | cf :: rest, d, n, hn, hnd, hsort => by
    rw [List.map_cons, List.nodup_cons] at hnd
    rw [List.pairwise_cons] at hsort
    rw [denseFill]
    by_cases hbreak : d.length < cf.num
    · rw [if_pos hbreak]
      have hnone : (cf :: rest).find? (fun c => decide (c.num = n)) = none := by
        apply find?_num_none
        intro c hc
        rcases List.mem_cons.mp hc with h | h
        · subst h; omega
        · have := hsort.1 c h; omega
      rw [hnone]
    · rw [if_neg hbreak]
      have hlen' : n < (d.set cf.num (some cf)).length := by
        rw [List.length_set]; exact hn
      rw [denseFill_getD rest (d.set cf.num (some cf)) n hlen' hnd.2 hsort.2]
      by_cases hcn : cf.num = n
      · have hrest : rest.find? (fun c => decide (c.num = n)) = none := by
          apply find?_num_none
          intro c hc he
          apply hnd.1
          rw [hcn, ← he]
          exact List.mem_map.mpr ⟨c, hc, rfl⟩
        rw [hrest, List.find?_cons_of_pos _ (by simpa using hcn)]
        subst hcn
        exact getD_set_eq d cf.num (some cf) hn
      · rw [List.find?_cons_of_neg _ (by simpa using hcn)]
        rw [getD_set_ne d cf.num n (some cf) hcn]

/-- A number occurring among the descriptors looks up to a descriptor with
that number. -/
theorem fieldsByNumber_num (fields : List FieldDesc) (n : Nat)
    (h : n ∈ fields.map (fun fd => fd.num)) :
    (fieldsByNumber fields n).num = n := by
  obtain ⟨fd, hfd, hn⟩ := List.mem_map.mp h
  unfold fieldsByNumber
  cases hf : fields.find? (fun f => decide (f.num = n)) with
  | none =>
    rw [List.find?_eq_none] at hf
    exact absurd (by simpa using hn) (by simpa using hf fd hfd)
  | some a =>
    simpa using List.find?_some hf

/-- With distinct numbers, looking a member's number up returns that
member. -/
theorem fieldsByNumber_mem :
    ∀ (fields : List FieldDesc) (fd : FieldDesc),
      (fields.map (fun f => f.num)).Nodup → fd ∈ fields →
      fieldsByNumber fields fd.num = fd
  | [], _, _, hmem => absurd hmem (by simp)
  | f :: rest, fd, hnd, hmem => by
    rw [List.map_cons, List.nodup_cons] at hnd
    rcases List.mem_cons.mp hmem with h | h
    · subst h
      unfold fieldsByNumber
      rw [List.find?_cons_of_pos _ (by simp)]
    · have hne : f.num ≠ fd.num := fun he =>
        hnd.1 (he ▸ List.mem_map.mpr ⟨fd, h, rfl⟩)
      unfold fieldsByNumber
      rw [List.find?_cons_of_neg _ (by simpa using hne)]
      exact fieldsByNumber_mem rest fd hnd.2 h

/-- Components of a successfully built coder table, read off from
`makeCoderMethods`. -/
theorem makeCoderMethods_ok
    (fieldCoder weakCoder oneofCoder : FieldDesc → PointerCoderFuncs)
    (isMS : Bool) (fullName : String) (si : StructInfo)
    (fields : List FieldDesc) (oneofsLen : Nat) (cmi : CoderMessageInfo)
    (hok : makeCoderMethods fieldCoder weakCoder oneofCoder isMS fullName si
        fields oneofsLen = .ok cmi) :
    cmi.orderedCoderFields
      = (if 0 < oneofsLen then
          sortSlice
            (fun a b =>
              fieldsortLess (fieldsByNumber fields a.num) (fieldsByNumber fields b.num))
            (sortSlice (fun a b => decide (a.num < b.num))
              (fields.map (buildCoderField fieldCoder weakCoder oneofCoder)))
        else
          sortSlice (fun a b => decide (a.num < b.num))
            (fields.map (buildCoderField fieldCoder weakCoder oneofCoder)))
    ∧ cmi.denseCoderFields
      = denseFill
          (sortSlice (fun a b => decide (a.num < b.num))
            (fields.map (buildCoderField fieldCoder weakCoder oneofCoder)))
          (List.replicate
            (maxDenseLoop
              (sortSlice (fun a b => decide (a.num < b.num))
                (fields.map (buildCoderField fieldCoder weakCoder oneofCoder))) 0 + 1)
            none)
    ∧ cmi.coderFields
      = (fields.map (buildCoderField fieldCoder weakCoder oneofCoder)).foldl
          coderFieldsInsert (fun _ => none)
    ∧ cmi.isMessageSet = isMS := by
  unfold makeCoderMethods at hok
  by_cases h1 : (isMS && !si.extensionValid) = true
  · rw [if_pos h1] at hok
    simp at hok
  · rw [if_neg h1] at hok
    by_cases h2 : (isMS && !si.unknownValid) = true
    · rw [if_pos h2] at hok
      simp at hok
    · rw [if_neg h2] at hok
      simp only [Except.ok.injEq] at hok
      subst hok
      exact ⟨rfl, rfl, rfl, rfl⟩

/-- The modelled historical comparator is asymmetric. -/
theorem fieldsortLess_asymm (f g : FieldDesc) :
    fieldsortLess f g = true → fieldsortLess g f = false := by
  cases hf : f.inOneof <;> cases hg : g.inOneof <;>
    simp [fieldsortLess, hf, hg] <;> omega

/-- Non-strict transitivity of the modelled historical comparator. -/
theorem fieldsortLess_false_trans (f g h : FieldDesc) :
    fieldsortLess g f = false → fieldsortLess h g = false →
    fieldsortLess h f = false := by
  cases hf : f.inOneof <;> cases hg : g.inOneof <;> cases hh : h.inOneof <;>
    simp [fieldsortLess, hf, hg, hh] <;> omega

/-! ### Claim C7: dense lookup array vs number-keyed map -/

/-- C7: in every built table the dense array's extent is exactly the
spec's cutoff heuristic over the ascending field numbers plus one, every
in-range dense entry coincides with the number-keyed map's entry for that
number, and every field whose number the dense array covers is present
there as its own record. -/
theorem C7_dense_map_agreement
    (fieldCoder weakCoder oneofCoder : FieldDesc → PointerCoderFuncs)
    (isMS : Bool) (fullName : String) (si : StructInfo)
    (fields : List FieldDesc) (oneofsLen : Nat) (cmi : CoderMessageInfo)
    (hnd : (fields.map (fun fd => fd.num)).Nodup)
    (hok : makeCoderMethods fieldCoder weakCoder oneofCoder isMS fullName si
        fields oneofsLen = .ok cmi) :
    cmi.denseCoderFields.length
      = specDenseCutoff
          ((fields.map (fun fd => fd.num)).mergeSort (fun a b => decide (a ≤ b))) 0
        + 1
    ∧ (∀ n, n < cmi.denseCoderFields.length →
        cmi.denseCoderFields.getD n none = cmi.coderFields n)
    ∧ (∀ fd ∈ fields, fd.num < cmi.denseCoderFields.length →
        cmi.denseCoderFields.getD fd.num none
          = some (buildCoderField fieldCoder weakCoder oneofCoder fd)) := by
  obtain ⟨hord, hdense, hmap, hms⟩ :=
    makeCoderMethods_ok fieldCoder weakCoder oneofCoder isMS fullName si
      fields oneofsLen cmi hok
  have hndc : ((fields.map (buildCoderField fieldCoder weakCoder oneofCoder)).map
      (fun c => c.num)).Nodup := by
    rw [cfs_map_num]
    exact hnd
  have hndS : ((sortSlice (fun a b => decide (a.num < b.num))
      (fields.map (buildCoderField fieldCoder weakCoder oneofCoder))).map
      (fun c => c.num)).Nodup :=
    (((sortSlice_perm (fun a b => decide (a.num < b.num))
        (fields.map (buildCoderField fieldCoder weakCoder oneofCoder))).map
      (fun c : CoderFieldInfo => c.num)).nodup_iff).mpr hndc
  have hsort := sortSlice_lt_sorted
    (fields.map (buildCoderField fieldCoder weakCoder oneofCoder))
  have hlen : cmi.denseCoderFields.length
      = maxDenseLoop (sortSlice (fun a b => decide (a.num < b.num))
          (fields.map (buildCoderField fieldCoder weakCoder oneofCoder))) 0 + 1 := by
    rw [hdense, denseFill_length, List.length_replicate]
  have hagree : ∀ n, n < cmi.denseCoderFields.length →
      cmi.denseCoderFields.getD n none = cmi.coderFields n := by
    intro n hn
    have hn' : n < (List.replicate
        (maxDenseLoop (sortSlice (fun a b => decide (a.num < b.num))
          (fields.map (buildCoderField fieldCoder weakCoder oneofCoder))) 0 + 1)
        (none : Option CoderFieldInfo)).length := by
      rw [List.length_replicate]
      rw [hlen] at hn
      exact hn
    rw [hdense, hmap, denseFill_getD _ _ n hn' hndS hsort]
    by_cases hx : ∃ cf ∈ fields.map (buildCoderField fieldCoder weakCoder oneofCoder),
        cf.num = n
    · obtain ⟨cf, hmem, hcfn⟩ := hx
      have hfS : (sortSlice (fun a b => decide (a.num < b.num))
          (fields.map (buildCoderField fieldCoder weakCoder oneofCoder))).find?
            (fun c => decide (c.num = n)) = some cf := by
        rw [← hcfn]
        exact find?_num_unique _ cf hndS ((sortSlice_perm _ _).mem_iff.mpr hmem)
      rw [hfS, ← hcfn, coderMap_mem _ _ cf hndc hmem]
    · have hfS : (sortSlice (fun a b => decide (a.num < b.num))
          (fields.map (buildCoderField fieldCoder weakCoder oneofCoder))).find?
            (fun c => decide (c.num = n)) = none := by
        apply find?_num_none
        intro c hc he
        exact hx ⟨c, (sortSlice_perm _ _).subset hc, he⟩
      rw [hfS, coderMap_not_mem _ _ n (fun c hc he => hx ⟨c, hc, he⟩)]
      simp only [List.getD_eq_getElem?_getD, List.getElem?_replicate]
      split <;> rfl
  refine ⟨?_, hagree, ?_⟩
  · rw [hlen, maxDenseLoop_eq_spec, sorted_map_num, cfs_map_num]
  · intro fd hfd hn
    have hmem : buildCoderField fieldCoder weakCoder oneofCoder fd
        ∈ fields.map (buildCoderField fieldCoder weakCoder oneofCoder) :=
      List.mem_map_of_mem _ hfd
    have := hagree fd.num hn
    rw [this, hmap]
    have hnum : fd.num = (buildCoderField fieldCoder weakCoder oneofCoder fd).num := rfl
    rw [hnum, coderMap_mem _ _ _ hndc hmem]

unseal List.merge List.mergeSort in
/-- Witness for C7 on the sparse example `c7fields` (numbers 1, 2, 3, 300):
the dense array stops at cutoff 3 and its entry 3 agrees with the map. -/
theorem C7_dense_map_agreement_witness :
    c7cmi.denseCoderFields.length
      = specDenseCutoff
          ((c7fields.map (fun fd => fd.num)).mergeSort (fun a b => decide (a ≤ b))) 0
        + 1
    ∧ c7cmi.denseCoderFields.getD 3 none = c7cmi.coderFields 3 := by
  have h := C7_dense_map_agreement exRegistry exRegistry exRegistry false "M"
    exSi c7fields 0 c7cmi (by decide) rfl
  exact ⟨h.1, h.2.1 3 (by decide)⟩

/-! ### Claim C6: canonical field order -/

/-- The modelled comparator on descriptors with equal oneof membership
compares by number. -/
theorem fieldsortLess_same_flag (f g : FieldDesc) (h : f.inOneof = g.inOneof) :
    fieldsortLess f g = decide (f.num < g.num) := by
  simp [fieldsortLess, h]

/-- The modelled comparator on descriptors with different oneof membership
orders the non-member first. -/
theorem fieldsortLess_diff_flag (f g : FieldDesc) (h : f.inOneof ≠ g.inOneof) :
    fieldsortLess f g = !f.inOneof := by
  have hb : (f.inOneof != g.inOneof) = true := by
    simpa using h
  simp [fieldsortLess, hb]

/-- C6: the canonical field order is ascending by field number when the
type has no oneof group; with at least one oneof group the oneof-member
fields move to the end, each half in ascending number order — so the
spec's example {1 plain, 2 oneof, 3 plain, 4 oneof} yields marshal order
{1, 3, 2, 4}. -/
theorem C6_field_order
    (fieldCoder weakCoder oneofCoder : FieldDesc → PointerCoderFuncs)
    (isMS : Bool) (fullName : String) (si : StructInfo)
    (fields : List FieldDesc) (oneofsLen : Nat) (cmi : CoderMessageInfo)
    (hnd : (fields.map (fun fd => fd.num)).Nodup)
    (hok : makeCoderMethods fieldCoder weakCoder oneofCoder isMS fullName si
        fields oneofsLen = .ok cmi) :
    (oneofsLen = 0 →
      cmi.orderedCoderFields.map (fun cf => cf.num)
        = (fields.map (fun fd => fd.num)).mergeSort (fun a b => decide (a ≤ b)))
    ∧ (0 < oneofsLen →
      cmi.orderedCoderFields.map (fun cf => cf.num)
        = ((fields.filter (fun fd => !fd.inOneof)).map (fun fd => fd.num)).mergeSort
            (fun a b => decide (a ≤ b))
          ++ ((fields.filter (fun fd => fd.inOneof)).map (fun fd => fd.num)).mergeSort
            (fun a b => decide (a ≤ b))) := by
  obtain ⟨hord, hdense, hmap, hms⟩ :=
    makeCoderMethods_ok fieldCoder weakCoder oneofCoder isMS fullName si
      fields oneofsLen cmi hok
  constructor
  · intro h0
    rw [hord, if_neg (by omega), sorted_map_num, cfs_map_num]
  · intro h0
    rw [hord, if_pos h0]
    have hSperm : ((sortSlice
        (fun a b =>
          fieldsortLess (fieldsByNumber fields a.num) (fieldsByNumber fields b.num))
        (sortSlice (fun a b => decide (a.num < b.num))
          (fields.map (buildCoderField fieldCoder weakCoder oneofCoder)))).map
          (fun cf => cf.num)).Perm (fields.map (fun fd => fd.num)) := by
      refine (((sortSlice_perm _ _).map (fun cf : CoderFieldInfo => cf.num)).trans
        ((sortSlice_perm _ _).map (fun cf : CoderFieldInfo => cf.num))).trans ?_
      exact List.Perm.of_eq (cfs_map_num fieldCoder weakCoder oneofCoder fields)
    have hOpair : ((sortSlice
        (fun a b =>
          fieldsortLess (fieldsByNumber fields a.num) (fieldsByNumber fields b.num))
        (sortSlice (fun a b => decide (a.num < b.num))
          (fields.map (buildCoderField fieldCoder weakCoder oneofCoder)))).map
          (fun cf => cf.num)).Pairwise
        (fun n m => fieldsortLess (fieldsByNumber fields m) (fieldsByNumber fields n)
          = false) := by
      have h := @List.sorted_mergeSort CoderFieldInfo
        (fun a b =>
          !(fieldsortLess (fieldsByNumber fields b.num) (fieldsByNumber fields a.num)))
        (by
          intro a b c hab hbc
          rw [Bool.not_eq_true'] at hab hbc ⊢
          exact fieldsortLess_false_trans _ _ _ hab hbc)
        (by
          intro a b
          cases hx : fieldsortLess (fieldsByNumber fields b.num)
              (fieldsByNumber fields a.num) with
          | false => simp [hx]
          | true => simp [fieldsortLess_asymm _ _ hx])
        (sortSlice (fun a b => decide (a.num < b.num))
          (fields.map (buildCoderField fieldCoder weakCoder oneofCoder)))
      have h' := h.imp (fun {a b} hb => by
        rw [Bool.not_eq_true'] at hb
        exact hb)
      exact h'.map (fun cf : CoderFieldInfo => cf.num) (fun a b hr => hr)
    have hmem1 : ∀ n ∈ ((fields.filter (fun fd => !fd.inOneof)).map
        (fun fd => fd.num)).mergeSort (fun a b => decide (a ≤ b)),
        (fieldsByNumber fields n).num = n
        ∧ (fieldsByNumber fields n).inOneof = false := by
      intro n hmemn
      obtain ⟨fd, hfd, rfl⟩ := List.mem_map.mp (List.mem_mergeSort.mp hmemn)
      have h2 := List.mem_filter.mp hfd
      rw [fieldsByNumber_mem fields fd hnd h2.1]
      exact ⟨rfl, by simpa using h2.2⟩
    have hmem2 : ∀ n ∈ ((fields.filter (fun fd => fd.inOneof)).map
        (fun fd => fd.num)).mergeSort (fun a b => decide (a ≤ b)),
        (fieldsByNumber fields n).num = n
        ∧ (fieldsByNumber fields n).inOneof = true := by
      intro n hmemn
      obtain ⟨fd, hfd, rfl⟩ := List.mem_map.mp (List.mem_mergeSort.mp hmemn)
      have h2 := List.mem_filter.mp hfd
      rw [fieldsByNumber_mem fields fd hnd h2.1]
      exact ⟨rfl, h2.2⟩
    have hTpair : (((fields.filter (fun fd => !fd.inOneof)).map
        (fun fd => fd.num)).mergeSort (fun a b => decide (a ≤ b))
        ++ ((fields.filter (fun fd => fd.inOneof)).map
          (fun fd => fd.num)).mergeSort (fun a b => decide (a ≤ b))).Pairwise
        (fun n m => fieldsortLess (fieldsByNumber fields m) (fieldsByNumber fields n)
          = false) := by
      rw [List.pairwise_append]
      refine ⟨?_, ?_, ?_⟩
      · apply (mergeSort_nat_sorted _).imp_of_mem
        intro a b ha hb hab
        obtain ⟨ha1, ha2⟩ := hmem1 a ha
        obtain ⟨hb1, hb2⟩ := hmem1 b hb
        rw [fieldsortLess_same_flag _ _ (by rw [ha2, hb2]), hb1, ha1]
        simp only [decide_eq_false_iff_not]
        omega
      · apply (mergeSort_nat_sorted _).imp_of_mem
        intro a b ha hb hab
        obtain ⟨ha1, ha2⟩ := hmem2 a ha
        obtain ⟨hb1, hb2⟩ := hmem2 b hb
        rw [fieldsortLess_same_flag _ _ (by rw [ha2, hb2]), hb1, ha1]
        simp only [decide_eq_false_iff_not]
        omega
      · intro a ha b hb
        obtain ⟨ha1, ha2⟩ := hmem1 a ha
        obtain ⟨hb1, hb2⟩ := hmem2 b hb
        rw [fieldsortLess_diff_flag _ _ (by rw [ha2, hb2]; simp), hb2]
        rfl
    have hfilters : ((fields.filter (fun fd => !fd.inOneof))
        ++ (fields.filter (fun fd => fd.inOneof))).Perm fields := by
      have h := List.filter_append_perm (fun fd => !fd.inOneof) fields
      have h2 : fields.filter (fun x => !(!x.inOneof))
          = fields.filter (fun fd => fd.inOneof) :=
        List.filter_congr (fun a _ => by simp)
      rw [h2] at h
      exact h
    have hTperm : (((fields.filter (fun fd => !fd.inOneof)).map
        (fun fd => fd.num)).mergeSort (fun a b => decide (a ≤ b))
        ++ ((fields.filter (fun fd => fd.inOneof)).map
          (fun fd => fd.num)).mergeSort (fun a b => decide (a ≤ b))).Perm
        (fields.map (fun fd => fd.num)) := by
      refine ((List.mergeSort_perm _ _).append (List.mergeSort_perm _ _)).trans ?_
      refine (List.Perm.of_eq (List.map_append _ _ _).symm).trans ?_
      exact hfilters.map (fun fd => fd.num)
    have hanti : ∀ a, a ∈ ((sortSlice
        (fun a b =>
          fieldsortLess (fieldsByNumber fields a.num) (fieldsByNumber fields b.num))
        (sortSlice (fun a b => decide (a.num < b.num))
          (fields.map (buildCoderField fieldCoder weakCoder oneofCoder)))).map
          (fun cf => cf.num)) →
        ∀ b, b ∈ ((sortSlice
          (fun a b =>
            fieldsortLess (fieldsByNumber fields a.num) (fieldsByNumber fields b.num))
          (sortSlice (fun a b => decide (a.num < b.num))
            (fields.map (buildCoderField fieldCoder weakCoder oneofCoder)))).map
            (fun cf => cf.num)) →
        fieldsortLess (fieldsByNumber fields b) (fieldsByNumber fields a) = false →
        fieldsortLess (fieldsByNumber fields a) (fieldsByNumber fields b) = false →
        a = b := by
      intro a ha b hb h1 h2
      have han := fieldsByNumber_num fields a (hSperm.subset ha)
      have hbn := fieldsByNumber_num fields b (hSperm.subset hb)
      by_cases hflag : (fieldsByNumber fields a).inOneof
          = (fieldsByNumber fields b).inOneof
      · rw [fieldsortLess_same_flag _ _ hflag.symm, hbn, han] at h1
        rw [fieldsortLess_same_flag _ _ hflag, han, hbn] at h2
        simp only [decide_eq_false_iff_not] at h1 h2
        omega
      · rw [fieldsortLess_diff_flag _ _ (fun he => hflag he.symm)] at h1
        rw [fieldsortLess_diff_flag _ _ hflag] at h2
        simp only [Bool.not_eq_false'] at h1 h2
        exact absurd (h2.trans h1.symm) hflag
    exact sorted_perm_unique _ _ (hSperm.trans hTperm.symm) hanti hOpair hTpair

unseal List.merge List.mergeSort in
/-- Witness for C6 on the spec's example `c6fields`: the built order is
[1, 3] followed by the oneof members [2, 4]. -/
theorem C6_field_order_witness :
    c6cmi.orderedCoderFields.map (fun cf => cf.num) = [1, 3] ++ [2, 4] := by
  have h := (C6_field_order exRegistry exRegistry exRegistry false "M" exSi
    c6fields 1 c6cmi (by decide) rfl).2 (by omega)
  rw [h]
  decide

/-- Witness for C1 on the coherent one-field type `c1mi` without cache
reuse. -/
theorem C1_marshal_size_agree_witness :
    ∃ out, marshalAppendPointer c1mi [] (some c1m) plainOpts = ([] ++ out, none)
      ∧ (sizePointer c1mi (some c1m) plainOpts).1 = (out.length : Int) :=
  (C1_marshal_size_agree c1mi c1m [] plainOpts
    (by
      intro f hf
      simp [c1mi] at hf
      rw [hf]
      exact Or.inr ⟨fun _ _ => 1, fun b _ _ => (b ++ [7], none), rfl, rfl,
        fun b v opts => ⟨[7], rfl, rfl⟩⟩)
    (by intro e he; simp [c1m] at he)
    (by simp [c1m])
    (fun b opts => ⟨[], by simp [c1mi, exMsgSetMarshal], rfl⟩)
    (by intro h; simp [c1mi] at h)
    rfl).2

end ProtoEnc
